import Mathlib

/-!
Verification development for the entry registry and execution engine of the
Demo_Vue3_Sample2 repository.

The JavaScript sources are shallowly embedded as executable Lean definitions:

* `EntryManager` and its operations embed `src/classes/EntryManager.js`.
  JavaScript `Map` objects become insertion-ordered association lists with
  `mapGet`/`mapSet`/`mapDel` mirroring `get`/`set`/`delete`.  Entries are
  addressed by their `id` string; a container's `children` array of entry
  objects is represented by the list of the children's ids, with every access
  going through `entriesById` exactly as the source reads and mutates the
  shared objects it stores there.
* `ExecutionLogService` embeds the log store defined in `src/App.vue`.
* `executeEntry` embeds `src/services/entry_execution/EntryExecutionService.js`.
* `handleWorkerMessage` embeds the message handler of
  `src/services/script_execution/JavaScriptExecutionEngine.js`.

Recursive walks over the id graph (`getAllDescendantIds`, `_removeDescendants`,
`_removeExecution`) take an explicit fuel argument: the JavaScript recursion
terminates exactly on the forest-shaped states the registry is specified to
maintain, and the theorems below supply enough fuel through an explicit
descent measure.
-/

/-! ## Insertion-ordered association-list maps (JavaScript `Map` / object) -/

/-- `Map.get` / property read: first binding of the key, if any. -/
def mapGet {α : Type} (l : List (String × α)) (k : String) : Option α :=
  match l with
  | [] => none
  | (k', v) :: rest => if k' = k then some v else mapGet rest k

/-- `Map.set` / property write: replace the existing binding in place,
otherwise append (JavaScript preserves insertion order). -/
def mapSet {α : Type} (l : List (String × α)) (k : String) (v : α) :
    List (String × α) :=
  match l with
  | [] => [(k, v)]
  | (k', v') :: rest =>
    if k' = k then (k, v) :: rest else (k', v') :: mapSet rest k v

/-- `Map.delete` / `delete obj[k]`: drop the binding of the key. -/
def mapDel {α : Type} (l : List (String × α)) (k : String) :
    List (String × α) :=
  match l with
  | [] => []
  | (k', v) :: rest =>
    if k' = k then mapDel rest k else (k', v) :: mapDel rest k

theorem mapGet_mapSet_self {α : Type} (l : List (String × α)) (k : String)
    (v : α) : mapGet (mapSet l k v) k = some v := by
  induction l with
  | nil => simp [mapGet, mapSet]
  | cons kv rest ih =>
    by_cases h : kv.1 = k
    · simp [mapSet, h, mapGet]
    · simp [mapSet, h, mapGet, ih]

theorem mapGet_mapSet_ne {α : Type} (l : List (String × α)) {k k' : String}
    (v : α) (h : k ≠ k') : mapGet (mapSet l k v) k' = mapGet l k' := by
  induction l with
  | nil => simp [mapGet, mapSet, h]
  | cons kv rest ih =>
    by_cases hk : kv.1 = k
    · simp [mapSet, hk, mapGet, h]
    · simp [mapSet, hk, mapGet, ih]

theorem mapGet_mapDel_self {α : Type} (l : List (String × α)) (k : String) :
    mapGet (mapDel l k) k = none := by
  induction l with
  | nil => simp [mapGet, mapDel]
  | cons kv rest ih =>
    by_cases h : kv.1 = k
    · simpa [mapDel, h] using ih
    · simpa [mapDel, mapGet, h] using ih

theorem mapGet_mapDel_ne {α : Type} (l : List (String × α)) {k k' : String}
    (h : k ≠ k') : mapGet (mapDel l k) k' = mapGet l k' := by
  induction l with
  | nil => simp [mapGet, mapDel]
  | cons kv rest ih =>
    have h' : k' ≠ k := Ne.symm h
    by_cases hk : kv.1 = k
    · have hne : kv.1 ≠ k' := by rw [hk]; exact h
      simp [mapDel, mapGet, hk, hne, h, h', ih]
    · by_cases hk' : kv.1 = k'
      · simp [mapDel, mapGet, hk, hk', h, h']
      · simp [mapDel, mapGet, hk, hk', h, h', ih]

theorem mapGet_mem {α : Type} {l : List (String × α)} {k : String} {v : α}
    (h : mapGet l k = some v) : (k, v) ∈ l := by
  induction l with
  | nil => simp [mapGet] at h
  | cons kv rest ih =>
    by_cases hk : kv.1 = k
    · simp [mapGet, hk] at h
      cases kv with
      | mk k1 v1 =>
        simp only at hk
        subst hk
        subst h
        exact List.mem_cons_self _ _
    · simp [mapGet, hk] at h
      exact List.mem_cons_of_mem _ (ih h)

/-- A deletion never resurrects a binding: lookups in the deleted map are
either `none` or agree with the original map. -/
theorem mapGet_mapDel_sub {α : Type} (l : List (String × α)) (k k' : String) :
    mapGet (mapDel l k) k' = none ∨ mapGet (mapDel l k) k' = mapGet l k' := by
  by_cases h : k = k'
  · subst h
    exact Or.inl (mapGet_mapDel_self l k)
  · exact Or.inr (mapGet_mapDel_ne l h)

/-! ## JavaScript `Array.prototype.splice` fragments -/

/-- Insertion splice `arr.splice(i, 0, a)`: a negative index counts from the
end (clamped at `0`), an index past the end appends. -/
def jsSpliceIns {α : Type} (l : List α) (i : Int) (a : α) : List α :=
  let pos : Nat := if i < 0 then ((l.length : Int) + i).toNat
    else min i.toNat l.length
  l.take pos ++ a :: l.drop pos

theorem jsSpliceIns_length {α : Type} (l : List α) (i : Int) (a : α) :
    (jsSpliceIns l i a).length = l.length + 1 := by
  simp only [jsSpliceIns, List.length_append, List.length_take,
    List.length_cons, List.length_drop]
  omega

theorem count_take_add_count_drop {α : Type} [DecidableEq α] (l : List α)
    (n : Nat) (a : α) :
    (l.take n).count a + (l.drop n).count a = l.count a := by
  rw [← List.count_append, List.take_append_drop]

theorem jsSpliceIns_count {α : Type} [DecidableEq α] (l : List α) (i : Int)
    (a : α) : (jsSpliceIns l i a).count a = l.count a + 1 := by
  simp only [jsSpliceIns, List.count_append, List.count_cons_self]
  have h := count_take_add_count_drop l
    (if i < 0 then ((l.length : Int) + i).toNat else min i.toNat l.length) a
  omega

theorem jsSpliceIns_count_ne {α : Type} [DecidableEq α] (l : List α) (i : Int)
    {a b : α} (h : a ≠ b) : (jsSpliceIns l i a).count b = l.count b := by
  simp only [jsSpliceIns, List.count_append, List.count_cons_of_ne (Ne.symm h)]
  have h2 := count_take_add_count_drop l
    (if i < 0 then ((l.length : Int) + i).toNat else min i.toNat l.length) b
  omega

theorem jsSpliceIns_mem {α : Type} (l : List α) (i : Int) (a b : α) :
    b ∈ jsSpliceIns l i a ↔ b ∈ l ∨ b = a := by
  simp only [jsSpliceIns, List.mem_append, List.mem_cons]
  constructor
  · rintro (h | h | h)
    · exact Or.inl (List.mem_of_mem_take h)
    · exact Or.inr h
    · exact Or.inl (List.mem_of_mem_drop h)
  · rintro (h | h)
    · rcases List.mem_append.mp ((List.take_append_drop _ l).symm ▸ h) with
        h' | h'
      · exact Or.inl h'
      · exact Or.inr (Or.inr h')
    · exact Or.inr (Or.inl h)

/-- `Array.prototype.findIndex` (with `Option` in place of `-1`). -/
def jsFindIndex {α : Type} (p : α → Bool) : List α → Option Nat
  | [] => none
  | a :: rest => if p a then some 0 else (jsFindIndex p rest).map (· + 1)

theorem jsFindIndex_of_count_pos {α : Type} [DecidableEq α] {l : List α}
    {a : α} (h : 0 < l.count a) :
    ∃ i, jsFindIndex (fun x => x = a) l = some i := by
  induction l with
  | nil => simp at h
  | cons b rest ih =>
    by_cases hb : b = a
    · exact ⟨0, by simp [jsFindIndex, hb]⟩
    · rw [List.count_cons_of_ne (fun hc => hb hc.symm)] at h
      obtain ⟨i, hi⟩ := ih h
      exact ⟨i + 1, by simp [jsFindIndex, hb, hi]⟩

theorem jsFindIndex_eraseIdx_count {α : Type} [DecidableEq α] {l : List α}
    {a : α} {i : Nat} (h : jsFindIndex (fun x => x = a) l = some i) :
    (l.eraseIdx i).count a = l.count a - 1 := by
  induction l generalizing i with
  | nil => simp [jsFindIndex] at h
  | cons b rest ih =>
    by_cases hb : b = a
    · simp [jsFindIndex, hb] at h
      subst hb
      subst h
      simp [List.eraseIdx, List.count_cons_self]
    · simp [jsFindIndex, hb] at h
      obtain ⟨j, hj, hij⟩ := h
      subst hij
      simp [List.eraseIdx, List.count_cons_of_ne (fun hc => hb hc.symm), ih hj]

theorem jsFindIndex_found {α : Type} [DecidableEq α] {l : List α} {a : α}
    {i : Nat} (h : jsFindIndex (fun x => x = a) l = some i) :
    0 < l.count a := by
  induction l generalizing i with
  | nil => simp [jsFindIndex] at h
  | cons b rest ih =>
    by_cases hb : b = a
    · simp [hb, List.count_cons_self]
    · simp [jsFindIndex, hb] at h
      obtain ⟨j, hj, _⟩ := h
      rw [List.count_cons_of_ne (fun hc => hb hc.symm)]
      exact ih hj

/-- `Set.prototype.add` on an insertion-ordered set represented as a
duplicate-free list. -/
def setAdd (l : List String) (x : String) : List String :=
  if x ∈ l then l else l ++ [x]

/-! ## Entries (`src/classes/Entry.js`, `Block.js`, `Container.js`)

The registry only reads `id`, `type`, `name` and `children` of the entry
objects it stores; `type` is `'block'` for `Block` instances and
`'container'` for `Container` instances, the only two entry classes. -/

inductive EKind where
  | block
  | container
deriving DecidableEq, Repr

structure Entry where
  id : String
  name : String
  type : EKind
  children : List String
deriving DecidableEq, Repr

/-! ## `EntryManager` (`src/classes/EntryManager.js`) -/

structure EntryManager where
  entriesById : List (String × Entry)
  parentIdById : List (String × String)
deriving DecidableEq, Repr

namespace EntryManager

/-- `new EntryManager()` -/
def init : EntryManager := ⟨[], []⟩

/-- `_registerEntry(entry)`: `if (!entry || !entry.id) return false;` —
an empty id string is falsy in JavaScript.  Returns the success flag and
the updated state. -/
def registerEntry (m : EntryManager) (entry : Entry) : Bool × EntryManager :=
  if entry.id = "" then (false, m)
  else (true, { m with entriesById := mapSet m.entriesById entry.id entry })

/-- `getEntry(entryId)` (the `|| null` collapse keeps `Option`). -/
def getEntry (m : EntryManager) (entryId : String) : Option Entry :=
  mapGet m.entriesById entryId

/-- `getParentId(entryId)` (the `|| null` collapse also turns an
empty-string parent id, which is falsy, into "no parent"). -/
def getParentId (m : EntryManager) (entryId : String) : Option String :=
  match mapGet m.parentIdById entryId with
  | some p => if p = "" then none else some p
  | none => none

/-- `_detachEntry(entry)`: remove the entry from its parent's `children`
array and delete the child→parent relation.  `if (!parentId) return true`
treats both a missing binding and an empty-string parent id as "no parent". -/
def detachEntry (m : EntryManager) (entry : Entry) : Bool × EntryManager :=
  if entry.id = "" then (false, m)
  else
    match mapGet m.parentIdById entry.id with
    | none => (true, m)
    | some parentId =>
      if parentId = "" then (true, m)
      else
        match mapGet m.entriesById parentId with
        | none => (false, m)
        | some parentEntry =>
          if parentEntry.type ≠ EKind.container then (false, m)
          else
            match jsFindIndex (fun childId => childId = entry.id)
                parentEntry.children with
            | none => (false, m)
            | some index =>
              let newParent : Entry :=
                { parentEntry with
                  children := parentEntry.children.eraseIdx index }
              let m1 :=
                { m with entriesById := mapSet m.entriesById parentId newParent }
              (true, { m1 with parentIdById := mapDel m1.parentIdById entry.id })

/-- `addEntry(parentId, entry, index)`.  The source registers the entry and
records the child→parent relation *before* validating the index; the splice
mutates the parent object fetched before registration, so when
`entry.id = parentId` the registration has already replaced that object in
`entriesById` and the splice effect is lost. -/
def addEntry (m : EntryManager) (parentId : Option String) (entry : Entry)
    (index : Int) : Bool × EntryManager :=
  match parentId with
  | none => registerEntry m entry
  | some pid =>
    match mapGet m.entriesById pid with
    | none => (false, m)
    | some parentEntry =>
      if parentEntry.type ≠ EKind.container then (false, m)
      else
        let m1 := (registerEntry m entry).2
        let m2 := { m1 with parentIdById := mapSet m1.parentIdById entry.id pid }
        if 0 ≤ index ∧ index ≤ (parentEntry.children.length : Int) then
          let newChildren := jsSpliceIns parentEntry.children index entry.id
          let newParent : Entry := { parentEntry with children := newChildren }
          let m3 :=
            if entry.id = pid then m2
            else
              { m2 with entriesById := mapSet m2.entriesById pid newParent }
          (true, m3)
        else (false, m2)

/-- `_removeDescendants(entry)`: for each child, delete its parent relation,
recurse into container children, and deregister it; finally clear the
entry's own `children` array.  The recursion is fuelled; the JavaScript
original terminates exactly when the child graph below the entry is
well-founded. -/
def removeDescendants (m : EntryManager) : Nat → Entry → EntryManager
  | 0, _ => m
  | fuel + 1, entry =>
    let m1 := entry.children.foldl
      (fun acc childId =>
        let acc1 := { acc with parentIdById := mapDel acc.parentIdById childId }
        let acc2 :=
          match mapGet acc1.entriesById childId with
          | some child =>
            if child.type = EKind.container then
              removeDescendants acc1 fuel child
            else acc1
          | none => acc1
        { acc2 with entriesById := mapDel acc2.entriesById childId }) m
    match mapGet m1.entriesById entry.id with
    | some e =>
      let cleared : Entry := { e with children := [] }
      { m1 with entriesById := mapSet m1.entriesById entry.id cleared }
    | none => m1

/-- `removeEntry(entryId)`.  The removed entry itself stays in
`entriesById`; only the parent link and (for containers) the descendants
are removed. -/
def removeEntry (m : EntryManager) (entryId : String) : Bool × EntryManager :=
  match mapGet m.parentIdById entryId with
  | none => (false, m)
  | some parentId =>
    if parentId = "" then (false, m)
    else
      match mapGet m.entriesById parentId with
      | none => (false, m)
      | some parentEntry =>
        if parentEntry.type ≠ EKind.container then (false, m)
        else
          match mapGet m.entriesById entryId with
          | none => (false, m)
          | some childEntry =>
            match jsFindIndex (fun childId => childId = entryId)
                parentEntry.children with
            | none => (false, m)
            | some index =>
              let newParent : Entry :=
                { parentEntry with
                  children := parentEntry.children.eraseIdx index }
              let m1 :=
                { m with entriesById := mapSet m.entriesById parentId newParent }
              let m2 := { m1 with
                parentIdById := mapDel m1.parentIdById entryId }
              if childEntry.type = EKind.container then
                (true, removeDescendants m2 m2.entriesById.length childEntry)
              else (true, m2)

/-- `reorderEntry(parentId, entryId, index)`: remove the child at its
current position, then re-insert it at `index`, decremented by one when the
target lies beyond the current position. -/
def reorderEntry (m : EntryManager) (parentId entryId : String)
    (index : Int) : Bool × EntryManager :=
  match mapGet m.entriesById parentId with
  | none => (false, m)
  | some parentEntry =>
    if parentEntry.type ≠ EKind.container then (false, m)
    else
      match jsFindIndex (fun childId => childId = entryId)
          parentEntry.children with
      | none => (false, m)
      | some currentIndex =>
        let targetIndex : Int :=
          if index > (currentIndex : Int) then index - 1 else index
        let newChildren := jsSpliceIns
          (parentEntry.children.eraseIdx currentIndex) targetIndex entryId
        let newParent : Entry := { parentEntry with children := newChildren }
        (true,
          { m with entriesById := mapSet m.entriesById parentId newParent })

/-- `moveEntry(entryId, newParentId, index)`: detach, then re-add.  The
detach result is ignored.  `addEntry` receives the live object, i.e. the
record currently stored under the entry's id. -/
def moveEntry (m : EntryManager) (entryId : String)
    (newParentId : Option String) (index : Int) : Bool × EntryManager :=
  match mapGet m.entriesById entryId with
  | none => (false, m)
  | some entry =>
    let m1 := (detachEntry m entry).2
    let entry1 := (mapGet m1.entriesById entry.id).getD entry
    addEntry m1 newParentId entry1 index

/-- `getAllDescendantIds(entryId)`: a `Set` seeded with the id itself,
unioned (in insertion order) with the recursive descendant ids of each
child when the entry is a registered container. -/
def getAllDescendantIds (m : EntryManager) : Nat → String → List String
  | 0, entryId => [entryId]
  | fuel + 1, entryId =>
    match mapGet m.entriesById entryId with
    | none => [entryId]
    | some entry =>
      if entry.type = EKind.container then
        entry.children.foldl
          (fun acc childId =>
            (getAllDescendantIds m fuel childId).foldl setAdd acc)
          [entryId]
      else [entryId]

end EntryManager

/-! ## Script execution results (`EntryExecutionService.js` typedef)

A result object carries a `success` flag and an `errorMessage`; `none`
models the JavaScript `undefined` for a field not (yet) present.  The leaf
unit contract of the spec (§6) fixes `success` to a boolean when present.
The embedding keeps exactly the fields the orchestration logic reads or
writes; additional script payload fields are never inspected by it. -/

structure ScriptExecutionResult where
  success : Option Bool := none
  errorMessage : Option String := none
deriving DecidableEq, Repr

/-- The `options` argument of `_normalizeResult`. -/
structure NormalizeOptions where
  success : Option Bool := none
  errorMessage : Option String := none
  childResults : Option (List ScriptExecutionResult) := none
deriving DecidableEq, Repr

/-- `_normalizeResult(result, options)`: force a `success` flag (from the
options, else keeping an existing one, else the AND over `childResults`
when given, else `false`), then force an `errorMessage` (from the options,
else keeping an existing one, else `''` on success and a default text on
failure).  The internal `try`/`catch` guards property access only and has
no counterpart on the embedded total functions. -/
def normalizeResult (result : ScriptExecutionResult)
    (options : NormalizeOptions) : ScriptExecutionResult :=
  let r1 :=
    match options.success with
    | some b => { result with success := some b }
    | none =>
      match result.success with
      | some _ => result
      | none =>
        match options.childResults with
        | some cs =>
          { result with
            success := some (cs.all fun c => c.success == some true) }
        | none => { result with success := some false }
  match options.errorMessage with
  | some msg => { r1 with errorMessage := some msg }
  | none =>
    match r1.errorMessage with
    | some _ => r1
    | none =>
      if r1.success = some true then { r1 with errorMessage := some "" }
      else { r1 with errorMessage := some "Unknown error occurred." }

/-! ## `ExecutionLogService` (`src/App.vue`) -/

/-- The snapshot of the executed entry taken by `addLog`. -/
structure EntrySnap where
  id : String
  name : String
  type : EKind
deriving DecidableEq, Repr

structure LogRecord where
  executionId : String
  parentExecutionId : Option String
  timestamp : Nat
  entryId : String
  entryName : String
  entryType : EKind
  result : Option ScriptExecutionResult
  execTime : Option Nat
  startTime : Nat
deriving DecidableEq, Repr

/-- `this._maxLogs = 1000` -/
def logMaxLogs : Nat := 1000

/-- `this._cleanupBatchSize = 100` -/
def logCleanupBatchSize : Nat := 100

structure ExecutionLogService where
  rootExecutions : List LogRecord
  executionsByParent : List (String × List LogRecord)
deriving DecidableEq, Repr

namespace ExecutionLogService

/-- `new ExecutionLogService()` -/
def init : ExecutionLogService := ⟨[], []⟩

/-- `_getExecutionCount()` -/
def getExecutionCount (s : ExecutionLogService) : Nat :=
  s.executionsByParent.foldl (fun count kv => count + kv.2.length)
    s.rootExecutions.length

/-- `_removeExecution(executionId)`: recursively delete the buckets of the
execution and of every record listed below it.  The children snapshot is
read from the current dictionary before recursing, as in the source; the
recursion is fuelled (the original terminates on the acyclic stores the
service builds). -/
def removeExecution : Nat → List (String × List LogRecord) → String →
    List (String × List LogRecord)
  | 0, byParent, _ => byParent
  | fuel + 1, byParent, executionId =>
    let children := (mapGet byParent executionId).getD []
    let b1 := children.foldl
      (fun acc child => removeExecution fuel acc child.executionId) byParent
    mapDel b1 executionId

/-- `_cleanupExecutions(count)` for an actual number (the `count === null`
early return is not exercised by `addLog`, which always passes the batch
size).  Removes the `min count rootExecutions.length` oldest roots and all
buckets below them. -/
def cleanupExecutions (s : ExecutionLogService) (count : Nat) :
    ExecutionLogService :=
  if s.rootExecutions.length > 0 ∧ count > 0 then
    let n := min count s.rootExecutions.length
    let removed := s.rootExecutions.take n
    let fuel := s.executionsByParent.length + 1
    { rootExecutions := s.rootExecutions.drop n,
      executionsByParent := removed.foldl
        (fun b ex => removeExecution fuel b ex.executionId)
        s.executionsByParent }
  else s

/-- `addLog(entry, executionId, parentExecutionId)`.  `now` stands for the
wall-clock reads (`new Date()` / `performance.now()`), which the store only
copies into the record.  An empty-string parent execution id is falsy in
`if (parentExecutionId)` and files the record as a root. -/
def mkRecord (entry : EntrySnap) (executionId : String)
    (parentExecutionId : Option String) (now : Nat) : LogRecord :=
  { executionId := executionId,
    parentExecutionId := parentExecutionId,
    timestamp := now,
    entryId := entry.id,
    entryName := entry.name,
    entryType := entry.type,
    result := none,
    execTime := none,
    startTime := now }

def addLog (s : ExecutionLogService) (entry : EntrySnap)
    (executionId : String) (parentExecutionId : Option String) (now : Nat) :
    ExecutionLogService :=
  let execution : LogRecord := mkRecord entry executionId parentExecutionId now
  let s1 :=
    match parentExecutionId with
    | some pid =>
      if pid = "" then { s with rootExecutions := s.rootExecutions ++ [execution] }
      else
        { s with executionsByParent :=
            match mapGet s.executionsByParent pid with
            | none => mapSet s.executionsByParent pid [execution]
            | some bucket => mapSet s.executionsByParent pid (bucket ++ [execution]) }
    | none => { s with rootExecutions := s.rootExecutions ++ [execution] }
  if getExecutionCount s1 > logMaxLogs then
    cleanupExecutions s1 logCleanupBatchSize
  else s1

/-- `_findExecution(executionId)`: root list first, then each parent bucket
in insertion order. -/
def findExecution (s : ExecutionLogService) (executionId : String) :
    Option LogRecord :=
  match s.rootExecutions.find? (fun e => e.executionId = executionId) with
  | some e => some e
  | none =>
    s.executionsByParent.foldl
      (fun acc kv =>
        match acc with
        | some e => some e
        | none => kv.2.find? (fun e => e.executionId = executionId)) none

/-- Replace a record in place (the source mutates the found record object;
the embedding rewrites the list entry with the same `executionId`). -/
def updateRecord (r : LogRecord) (executionId : String)
    (result : ScriptExecutionResult) (now : Nat) : LogRecord :=
  if r.executionId = executionId then
    { r with result := some result, execTime := some (now - r.startTime) }
  else r

/-- `updateLog(executionId, result)`: find the record and write its result
and elapsed time; a miss is silently ignored. -/
def updateLog (s : ExecutionLogService) (executionId : String)
    (result : ScriptExecutionResult) (now : Nat) : ExecutionLogService :=
  match findExecution s executionId with
  | none => s
  | some _ =>
    { rootExecutions :=
        s.rootExecutions.map (fun r => updateRecord r executionId result now),
      executionsByParent :=
        s.executionsByParent.map
          (fun kv => (kv.1, kv.2.map (fun r => updateRecord r executionId result now))) }

/-- `clearLogs()` -/
def clearLogs (_ : ExecutionLogService) : ExecutionLogService := init

end ExecutionLogService

/-! ## Entry trees walked by the execution service

`EntryExecutionService` walks the entry objects' `children` arrays
directly.  On the forest-shaped object graphs the registry maintains this
walk traverses an inductive tree of blocks and containers. -/

inductive ETree where
  | block (id : String) (name : String)
  | container (id : String) (name : String) (children : List ETree)

def ETree.id : ETree → String
  | .block i _ => i
  | .container i _ _ => i

def ETree.name : ETree → String
  | .block _ n => n
  | .container _ n _ => n

def ETree.snap : ETree → EntrySnap
  | .block i n => ⟨i, n, EKind.block⟩
  | .container i n _ => ⟨i, n, EKind.container⟩

/-- Outcome of one `scriptExecutionService.executeScript(name)` call: the
promise either resolves with a result object or rejects with an error whose
`message` is recorded.  The engine choice (worker or direct fallback) is
behind this interface. -/
inductive ScriptOutcome where
  | ok (r : ScriptExecutionResult)
  | err (message : String)
deriving DecidableEq, Repr

/-! ## `EntryExecutionService` (`src/services/entry_execution/EntryExecutionService.js`) -/

structure ExecState where
  executionStack : List String
  executionSequence : Nat
  sessionId : String
  executionLogService : Option ExecutionLogService
  now : Nat
deriving DecidableEq, Repr

namespace ExecState

/-- `this._executionStack.push(entry.id)` -/
def push (st : ExecState) (id : String) : ExecState :=
  { st with executionStack := st.executionStack ++ [id] }

/-- `this._executionStack.pop()` (a no-op on an empty array). -/
def pop (st : ExecState) : ExecState :=
  { st with executionStack := st.executionStack.dropLast }

/-- `_generateExecutionId(entryId)` -/
def generateExecutionId (st : ExecState) (entryId : String) :
    String × ExecState :=
  let seq := st.executionSequence + 1
  (st.sessionId ++ "_" ++ toString seq ++ "_" ++ entryId,
    { st with executionSequence := seq })

/-- `if (this.executionLogService) this.executionLogService.addLog(...)` -/
def logStart (st : ExecState) (e : ETree) (executionId : String)
    (traceId : Option String) : ExecState :=
  match st.executionLogService with
  | none => st
  | some s =>
    let s1 := s.addLog e.snap executionId traceId st.now
    { st with executionLogService := some s1 }

/-- `if (this.executionLogService) this.executionLogService.updateLog(...)` -/
def logEnd (st : ExecState) (executionId : String)
    (result : ScriptExecutionResult) : ExecState :=
  match st.executionLogService with
  | none => st
  | some s =>
    let s1 := s.updateLog executionId result st.now
    { st with executionLogService := some s1 }

/-- `isExecuting()` -/
def isExecuting (st : ExecState) : Bool :=
  st.executionStack.length > 0

end ExecState

/-- `_executeBlock(block)`: run the script named after the block, catch a
rejection into the `errorMessage` option, and normalize. -/
def executeBlock (env : String → ScriptOutcome) (name : String) :
    ScriptExecutionResult :=
  match env name with
  | .ok r => normalizeResult r {}
  | .err message => normalizeResult {} { errorMessage := some message }

mutual

/-- `executeEntry(entry, traceId)`: push the id, mint an execution id, log
the start, dispatch by kind, log the result, and pop the stack on the way
out (`finally`).  Every inner call catches its own errors, so the embedded
function is total and always returns a result. -/
def executeEntry (env : String → ScriptOutcome) (entry : ETree)
    (traceId : Option String) (st : ExecState) :
    ScriptExecutionResult × ExecState :=
  match entry with
  | .block id name =>
    let st1 := st.push id
    let (executionId, st2) := st1.generateExecutionId id
    let st3 := st2.logStart (ETree.block id name) executionId traceId
    let result := executeBlock env name
    let st4 := st3.logEnd executionId result
    (result, st4.pop)
  | .container id name children =>
    let st1 := st.push id
    let (executionId, st2) := st1.generateExecutionId id
    let st3 := st2.logStart (ETree.container id name children) executionId traceId
    let (childResults, st4) := execChildren env children executionId st3
    let result := normalizeResult {} { childResults := some childResults }
    let st5 := st4.logEnd executionId result
    (result, st5.pop)

/-- The sequential `for (const childEntry of container.children)` loop of
`_executeContainer`, threading the state and collecting every child
result. -/
def execChildren (env : String → ScriptOutcome) (children : List ETree)
    (executionId : String) (st : ExecState) :
    List ScriptExecutionResult × ExecState :=
  match children with
  | [] => ([], st)
  | c :: rest =>
    let (r, st1) := executeEntry env c (some executionId) st
    let (rs, st2) := execChildren env rest executionId st1
    (r :: rs, st2)

end

/-! ## Stack events

The only statements touching `_executionStack` are the `push` at the top of
`executeEntry` and the `pop` in its `finally` block.  `entryEvents` lists
those operations in the order one invocation performs them; an interleaved
pair of invocations (two calls issued without awaiting the first) performs
some interleaving of their two event lists. -/

inductive StackEv where
  | push (id : String)
  | pop
deriving DecidableEq, Repr

/-- Apply one stack operation; `Array.prototype.pop` on an empty array is a
no-op. -/
def applyEv (s : List String) : StackEv → List String
  | .push i => s ++ [i]
  | .pop => s.dropLast

def applyEvs (s : List String) (es : List StackEv) : List String :=
  es.foldl applyEv s

mutual

/-- The stack operations one `executeEntry` invocation performs, in
order. -/
def entryEvents : ETree → List StackEv
  | .block id _ => [.push id, .pop]
  | .container id _ children => .push id :: treeListEvents children ++ [.pop]

def treeListEvents : List ETree → List StackEv
  | [] => []
  | c :: rest => entryEvents c ++ treeListEvents rest

end

/-- Run a list of stack events against a depth counter, failing when a pop
would hit depth zero. -/
def depthRun : List StackEv → Nat → Option Nat
  | [], d => some d
  | .push _ :: es, d => depthRun es (d + 1)
  | .pop :: es, d => if d = 0 then none else depthRun es (d - 1)

/-- Interleavings of two sequences. -/
inductive Interleave : List StackEv → List StackEv → List StackEv → Prop where
  | nil : Interleave [] [] []
  | left {a b c : List StackEv} (e : StackEv) :
      Interleave a b c → Interleave (e :: a) b (e :: c)
  | right {a b c : List StackEv} (e : StackEv) :
      Interleave a b c → Interleave a (e :: b) (e :: c)

/-! ## `JavaScriptExecutionEngine` worker message handling
(`src/services/script_execution/JavaScriptExecutionEngine.js`)

`pendingExecutions` maps a numeric correlation id to a pending completion;
the completion's `resolve`/`reject` pair is identified by an abstract
token.  Settlements record which completion was resolved or rejected and
with what. -/

inductive Settlement where
  | resolved (token : Nat) (result : Option ScriptExecutionResult)
  | rejected (token : Nat) (message : String)
deriving DecidableEq, Repr

/-- A worker message `e.data`: `{type, id, result, errmsg}`, each field
possibly absent. -/
structure WorkerMsg where
  type : String
  id : Option Nat := none
  result : Option ScriptExecutionResult := none
  errmsg : Option String := none
deriving DecidableEq, Repr

/-- Numeric-key lookup for `pendingExecutions` (a `Map` keyed by the
execution counter). -/
def npGet (l : List (Nat × Nat)) (k : Option Nat) : Option Nat :=
  match k with
  | none => none
  | some k =>
    match l with
    | [] => none
    | (k', v) :: rest => if k' = k then some v else npGet rest (some k)

def npDel (l : List (Nat × Nat)) (k : Nat) : List (Nat × Nat) :=
  match l with
  | [] => []
  | (k', v) :: rest =>
    if k' = k then npDel rest k else (k', v) :: npDel rest k

/-- `_rejectAllExecutions(errorMessage)`: reject every pending completion,
in insertion order, with the prefixed critical-error message, then clear
the map. -/
def rejectAllExecutions (pending : List (Nat × Nat))
    (errorMessage : String) : List Settlement × List (Nat × Nat) :=
  (pending.map fun kv =>
    Settlement.rejected kv.2 ("Critical error in Worker: " ++ errorMessage),
   [])

/-- `_handleWorkerMessage(e)`: dispatch on the message tag.  `ready` only
logs; `result` resolves the pending completion correlated by `id` (if
any); `error` with an `id` rejects exactly that completion, and without an
`id` rejects every pending completion.  A missing `errmsg` surfaces as the
empty message on the single-rejection path (`new Error(undefined)`) and as
the text `undefined` inside the critical-error template literal. -/
def handleWorkerMessage (pending : List (Nat × Nat)) (msg : WorkerMsg) :
    List Settlement × List (Nat × Nat) :=
  if msg.type = "ready" then ([], pending)
  else if msg.type = "result" then
    match npGet pending msg.id with
    | some token =>
      ([Settlement.resolved token msg.result], npDel pending (msg.id.getD 0))
    | none => ([], pending)
  else if msg.type = "error" then
    match msg.id with
    | some i =>
      match npGet pending (some i) with
      | some token =>
        ([Settlement.rejected token (msg.errmsg.getD "")], npDel pending i)
      | none => ([], pending)
    | none => rejectAllExecutions pending (msg.errmsg.getD "undefined")
  else ([], pending)

/-! ## Concrete fixtures -/

def entP : Entry := ⟨"P", "P", EKind.container, ["A", "B", "C"]⟩
def entA : Entry := ⟨"A", "A", EKind.block, []⟩
def entB : Entry := ⟨"B", "B", EKind.block, []⟩
def entC : Entry := ⟨"C", "C", EKind.block, []⟩

/-- A registry with one container `P` whose children are `[A, B, C]`. -/
def regABC : EntryManager :=
  ⟨[("P", entP), ("A", entA), ("B", entB), ("C", entC)],
   [("A", "P"), ("B", "P"), ("C", "P")]⟩

/-- A registry with one empty container `P`. -/
def regP : EntryManager := ⟨[("P", ⟨"P", "P", EKind.container, []⟩)], []⟩

def entE : Entry := ⟨"E", "E", EKind.block, []⟩

/-- Replace the `entriesById` component (notation helper for statements). -/
def EntryManager.withEntries (m : EntryManager) (e : List (String × Entry)) :
    EntryManager :=
  { m with entriesById := e }

/-- Replace the `children` component (notation helper for statements). -/
def Entry.withChildren (e : Entry) (cs : List String) : Entry :=
  { e with children := cs }


/-! ## Claim C3 -/

/-- Claim C3 counterexample: with children `[A,B,C]`,
`reorder(parent, "A", 2)` does *not* yield `[B,C,A]`: the tie-break
decrements the target to `1`, so the children become `[B,A,C]` — index `2`
means "drop after B", not "after C". -/
theorem reorderEntry_example_counterexample :
    ((EntryManager.reorderEntry regABC "P" "A" 2).2.getEntry "P").map
      Entry.children = some ["B", "A", "C"] ∧
    ((EntryManager.reorderEntry regABC "P" "A" 2).2.getEntry "P").map
      Entry.children ≠ some ["B", "C", "A"] :=
  ⟨by decide, by decide⟩

/-- Claim C3 (amended): for a container whose children are `[A,B,C]`,
`reorder(parent, "A", 2)` yields `[B,A,C]` (the decremented target lands
before C); moving A past both B and C takes `reorder(parent, "A", 3)`,
which yields `[B,C,A]`; `reorder(parent, "C", 0)` yields `[C,A,B]`; in
general, when `newIndex` is greater than the element's current index the
target index is decremented by one before inserting. -/
theorem reorderEntry_tie_break_and_examples :
    ((EntryManager.reorderEntry regABC "P" "A" 2).1 = true ∧
      ((EntryManager.reorderEntry regABC "P" "A" 2).2.getEntry "P").map
        Entry.children = some ["B", "A", "C"]) ∧
    ((EntryManager.reorderEntry regABC "P" "A" 3).1 = true ∧
      ((EntryManager.reorderEntry regABC "P" "A" 3).2.getEntry "P").map
        Entry.children = some ["B", "C", "A"]) ∧
    ((EntryManager.reorderEntry regABC "P" "C" 0).1 = true ∧
      ((EntryManager.reorderEntry regABC "P" "C" 0).2.getEntry "P").map
        Entry.children = some ["C", "A", "B"]) ∧
    (∀ (m : EntryManager) (parentId entryId : String) (index : Int)
        (pe : Entry) (cur : Nat),
      mapGet m.entriesById parentId = some pe →
      pe.type = EKind.container →
      jsFindIndex (fun c => c = entryId) pe.children = some cur →
      index > (cur : Int) →
      EntryManager.reorderEntry m parentId entryId index =
        (true, m.withEntries (mapSet m.entriesById parentId
          (pe.withChildren
            (jsSpliceIns (pe.children.eraseIdx cur) (index - 1) entryId))))) := by
  refine ⟨⟨by decide, by decide⟩, ⟨by decide, by decide⟩,
    ⟨by decide, by decide⟩, ?_⟩
  intro m parentId entryId index pe cur h1 h2 h3 h4
  simp only [EntryManager.reorderEntry, h1, h2, h3, ne_eq, not_true_eq_false,
    if_false, if_pos h4, EntryManager.withEntries, Entry.withChildren]

/-- Claim C3 witness: the general tie-break clause applied to the concrete
`[A,B,C]` registry. -/
theorem reorderEntry_tie_break_witness :
    EntryManager.reorderEntry regABC "P" "A" 2 =
      (true, regABC.withEntries (mapSet regABC.entriesById "P"
        (entP.withChildren
          (jsSpliceIns (entP.children.eraseIdx 0) (2 - 1) "A")))) :=
  reorderEntry_tie_break_and_examples.2.2.2 regABC "P" "A" 2 entP 0
    (by decide) (by decide) (by decide) (by decide)

/-! ## Claim C2 -/

/-- Claim C2 counterexample: `add` with an out-of-range index returns
`false` and leaves the entry registered, but the entry is *not* parentless:
`getParentId` answers the requested parent id, not "no parent". -/
theorem addEntry_out_of_range_not_floating :
    (EntryManager.addEntry regP (some "P") entE 5).1 = false ∧
    (EntryManager.addEntry regP (some "P") entE 5).2.getEntry "E" = some entE ∧
    (EntryManager.addEntry regP (some "P") entE 5).2.getParentId "E" ≠ none ∧
    (EntryManager.addEntry regP (some "P") entE 5).2.getParentId "E" =
      some "P" :=
  ⟨by decide, by decide, by decide, by decide⟩

/-- Claim C2 (amended): for every registered container parent and every
index outside `0 ≤ index ≤ len(parent.children)`,
`add(parentId, entry, index)` returns `false`, yet afterwards the entry is
present in `entriesById` *and* `parentIdByChildId` maps it to `parentId`
(`getParentId` answers `parentId`), while no container's `children` array
contains it — a dangling parent link rather than a parentless floating
entry. -/
theorem addEntry_out_of_range_registers_and_links :
    ∀ (m : EntryManager) (pid : String) (entry : Entry) (index : Int)
      (pe : Entry),
      mapGet m.entriesById pid = some pe →
      pe.type = EKind.container →
      ¬(0 ≤ index ∧ index ≤ (pe.children.length : Int)) →
      entry.id ≠ "" →
      pid ≠ "" →
      (EntryManager.addEntry m (some pid) entry index).1 = false ∧
      (EntryManager.addEntry m (some pid) entry index).2.getEntry entry.id =
        some entry ∧
      (EntryManager.addEntry m (some pid) entry index).2.getParentId entry.id =
        some pid ∧
      (∀ k, k ≠ entry.id →
        (EntryManager.addEntry m (some pid) entry index).2.getEntry k =
          m.getEntry k) ∧
      ((∀ k e', mapGet m.entriesById k = some e' → entry.id ∉ e'.children) →
        entry.id ∉ entry.children →
        ∀ k e',
          mapGet (EntryManager.addEntry m (some pid) entry index).2.entriesById
            k = some e' → entry.id ∉ e'.children) := by
  intro m pid entry index pe h1 h2 h3 h4 h5
  have heq : EntryManager.addEntry m (some pid) entry index =
      (false, ⟨mapSet m.entriesById entry.id entry,
        mapSet m.parentIdById entry.id pid⟩) := by
    simp only [EntryManager.addEntry, h1, h2, EntryManager.registerEntry,
      ne_eq, not_true_eq_false, if_false, if_neg h3, if_neg h4]
  rw [heq]
  refine ⟨rfl, ?_, ?_, ?_, ?_⟩
  · exact mapGet_mapSet_self _ _ _
  · simp only [EntryManager.getParentId, mapGet_mapSet_self, if_neg h5]
  · intro k hk
    exact mapGet_mapSet_ne _ _ (fun he => hk he.symm)
  · intro hnochild hself k e' hk
    by_cases hke : k = entry.id
    · subst hke
      rw [mapGet_mapSet_self] at hk
      cases hk
      exact hself
    · rw [mapGet_mapSet_ne _ _ (fun he => hke he.symm)] at hk
      exact hnochild k e' hk

/-- Claim C2 witness: the amended statement applied to a concrete empty
container and index `5`. -/
theorem addEntry_out_of_range_witness :
    (EntryManager.addEntry regP (some "P") entE 5).1 = false ∧
    (EntryManager.addEntry regP (some "P") entE 5).2.getParentId "E" =
      some "P" :=
  ⟨(addEntry_out_of_range_registers_and_links regP "P" entE 5
      ⟨"P", "P", EKind.container, []⟩ (by decide) (by decide) (by decide)
      (by decide) (by decide)).1,
   (addEntry_out_of_range_registers_and_links regP "P" entE 5
      ⟨"P", "P", EKind.container, []⟩ (by decide) (by decide) (by decide)
      (by decide) (by decide)).2.2.1⟩

/-! ## Claim C10 -/

def entX : Entry := ⟨"X", "X", EKind.block, []⟩

/-- A registry with container `P` holding block `E`, plus a loose block
`X`. -/
def regMove : EntryManager :=
  ⟨[("P", ⟨"P", "P", EKind.container, ["E"]⟩), ("E", entE), ("X", entX)],
   [("E", "P")]⟩

/-- Claim C10: when `moveEntry(id, newParentId, index)` is called for a
registered entry whose `newParentId` does not identify a registered
container, the call returns `false` but the entry has already been
detached from its former parent: it stays in `entriesById` while
`parentIdByChildId` no longer maps it and its former parent's `children`
no longer contain it, so a failed move loses the entry's original
position. -/
theorem moveEntry_failed_loses_position :
    ∀ (m : EntryManager) (entryId newParentId : String) (index : Int)
      (entry pe : Entry) (p : String),
      mapGet m.entriesById entryId = some entry →
      entry.id = entryId →
      entryId ≠ "" →
      mapGet m.parentIdById entryId = some p →
      p ≠ "" →
      p ≠ entryId →
      mapGet m.entriesById p = some pe →
      pe.type = EKind.container →
      pe.children.count entryId = 1 →
      (∀ q, mapGet m.entriesById newParentId = some q →
        q.type = EKind.block) →
      (EntryManager.moveEntry m entryId (some newParentId) index).1 = false ∧
      (EntryManager.moveEntry m entryId (some newParentId) index).2.getEntry
        entryId = some entry ∧
      (EntryManager.moveEntry m entryId (some newParentId) index).2.getParentId
        entryId = none ∧
      ((EntryManager.moveEntry m entryId (some newParentId) index).2.getEntry
        p).map (fun q => q.children.count entryId) = some 0 := by
  intro m entryId newParentId index entry pe p h1 h2 h3 h4 h5 h6 h7 h8 h9 h10
  subst h2
  obtain ⟨i, hi⟩ := jsFindIndex_of_count_pos (a := entry.id)
    (l := pe.children) (by omega)
  have hcount0 : ((pe.children.eraseIdx i).count entry.id) = 0 := by
    have := jsFindIndex_eraseIdx_count hi
    omega
  have hdetach : EntryManager.detachEntry m entry =
      (true, ⟨mapSet m.entriesById p
        (pe.withChildren (pe.children.eraseIdx i)),
        mapDel m.parentIdById entry.id⟩) := by
    simp only [EntryManager.detachEntry, h3, h4, h5, h7, h8, hi, ne_eq,
      not_true_eq_false, if_false, ite_false, Entry.withChildren]
  have hself : mapGet (mapSet m.entriesById p
      (pe.withChildren (pe.children.eraseIdx i))) entry.id =
      some entry := by
    rw [mapGet_mapSet_ne _ _ h6]
    exact h1
  have hnp : newParentId ≠ p := by
    intro hc
    subst hc
    have := h10 pe h7
    rw [h8] at this
    cases this
  have hadd : ∀ q, mapGet (mapSet m.entriesById p
      (pe.withChildren (pe.children.eraseIdx i))) newParentId = some q →
      q.type = EKind.block := by
    intro q hq
    rw [mapGet_mapSet_ne _ _ (Ne.symm hnp)] at hq
    exact h10 q hq
  have hmove : EntryManager.moveEntry m entry.id (some newParentId) index =
      (false, ⟨mapSet m.entriesById p
        (pe.withChildren (pe.children.eraseIdx i)),
        mapDel m.parentIdById entry.id⟩) := by
    simp only [EntryManager.moveEntry, h1, hdetach]
    simp only [hself, Option.getD_some]
    simp only [EntryManager.addEntry]
    cases hnew : mapGet (mapSet m.entriesById p
        (pe.withChildren (pe.children.eraseIdx i))) newParentId with
    | none => rfl
    | some q =>
      have hb := hadd q hnew
      simp [hb]
  rw [hmove]
  refine ⟨rfl, ?_, ?_, ?_⟩
  · exact hself
  · simp only [EntryManager.getParentId, mapGet_mapDel_self]
  · simp [EntryManager.getEntry, mapGet_mapSet_self, Entry.withChildren,
      hcount0]

/-- Claim C10 witness: moving `E` under the block `X` fails but leaves `E`
detached from `P`. -/
theorem moveEntry_failed_witness :
    (EntryManager.moveEntry regMove "E" (some "X") 0).1 = false ∧
    (EntryManager.moveEntry regMove "E" (some "X") 0).2.getParentId "E" =
      none :=
  have h := moveEntry_failed_loses_position regMove "E" "X" 0 entE
    ⟨"P", "P", EKind.container, ["E"]⟩ "P" (by decide) (by decide) (by decide)
    (by decide) (by decide) (by decide) (by decide) (by decide) (by decide)
    (fun q hq => by
      have he : mapGet regMove.entriesById "X" = some entX := by decide
      rw [he] at hq
      cases hq
      decide)
  ⟨h.1, h.2.2.1⟩

/-! ## Claim C9 -/

theorem npGet_npDel_self (l : List (Nat × Nat)) (k : Nat) :
    npGet (npDel l k) (some k) = none := by
  induction l with
  | nil => simp [npGet, npDel]
  | cons kv rest ih =>
    by_cases h : kv.1 = k
    · simpa [npDel, h] using ih
    · simpa [npDel, npGet, h] using ih

theorem npGet_npDel_ne (l : List (Nat × Nat)) {k k' : Nat} (h : k ≠ k') :
    npGet (npDel l k) (some k') = npGet l (some k') := by
  induction l with
  | nil => simp [npGet, npDel]
  | cons kv rest ih =>
    have h' : k' ≠ k := Ne.symm h
    by_cases hk : kv.1 = k
    · have hne : kv.1 ≠ k' := by rw [hk]; exact h
      simp [npDel, npGet, hk, hne, h, h', ih]
    · by_cases hk' : kv.1 = k'
      · simp [npDel, npGet, hk, hk', h, h']
      · simp [npDel, npGet, hk, hk', h, h', ih]

/-- Claim C9 counterexample: an id-less error message with text `boom`
rejects the pending completion with `Critical error in Worker: boom`, not
with `boom` itself — the rejection does not carry the message verbatim. -/
theorem workerError_reject_message_prefixed :
    handleWorkerMessage [(1, 100)] ⟨"error", none, none, some "boom"⟩ =
      ([Settlement.rejected 100 ("Critical error in Worker: boom")], []) ∧
    handleWorkerMessage [(1, 100)] ⟨"error", none, none, some "boom"⟩ ≠
      ([Settlement.rejected 100 "boom"], []) :=
  ⟨by decide, by decide⟩

/-- Claim C9 (amended): an error-tagged message carrying a correlation id
rejects exactly the pending completion stored under that id with the
carried message, removes it, and leaves every other pending completion
untouched; an error message without an id rejects every currently pending
completion with the critical-error message `Critical error in Worker: `
followed by the carried message, and the pending map becomes empty. -/
theorem handleWorkerMessage_error_dispatch :
    (∀ (pending : List (Nat × Nat)) (msg : WorkerMsg) (i token : Nat)
        (em : String),
      msg.type = "error" → msg.id = some i → msg.errmsg = some em →
      npGet pending (some i) = some token →
      handleWorkerMessage pending msg =
        ([Settlement.rejected token em], npDel pending i) ∧
      npGet (npDel pending i) (some i) = none ∧
      (∀ j, j ≠ i → npGet (npDel pending i) (some j) =
        npGet pending (some j))) ∧
    (∀ (pending : List (Nat × Nat)) (msg : WorkerMsg) (em : String),
      msg.type = "error" → msg.id = none → msg.errmsg = some em →
      handleWorkerMessage pending msg =
        (pending.map (fun kv => Settlement.rejected kv.2
          ("Critical error in Worker: " ++ em)), [])) := by
  constructor
  · intro pending msg i token em htype hid herr hpend
    refine ⟨?_, npGet_npDel_self pending i, ?_⟩
    · simp only [handleWorkerMessage, htype, hid, herr, hpend,
        Option.getD_some]
      rfl
    · intro j hj
      exact npGet_npDel_ne pending (Ne.symm hj)
  · intro pending msg em htype hid herr
    simp only [handleWorkerMessage, htype, hid, herr, rejectAllExecutions,
      Option.getD_some]
    rfl

/-- Claim C9 witness: both error paths at concrete pending maps. -/
theorem handleWorkerMessage_error_witness :
    handleWorkerMessage [(1, 100), (2, 200)]
      ⟨"error", some 2, none, some "bad"⟩ =
      ([Settlement.rejected 200 "bad"], npDel [(1, 100), (2, 200)] 2) ∧
    handleWorkerMessage [(1, 100)] ⟨"error", none, none, some "oops"⟩ =
      ([(1, 100)].map (fun kv => Settlement.rejected kv.2
        ("Critical error in Worker: " ++ "oops")), []) :=
  ⟨(handleWorkerMessage_error_dispatch.1 [(1, 100), (2, 200)]
      ⟨"error", some 2, none, some "bad"⟩ 2 200 "bad" rfl rfl rfl
      (by decide)).1,
   handleWorkerMessage_error_dispatch.2 [(1, 100)]
      ⟨"error", none, none, some "oops"⟩ "oops" rfl rfl rfl⟩

/-! ## Claims C4 and C5 -/

/-- The list of child results `_executeContainer` collects for a container
entry: the state after the push, the execution-id mint and the start-log
write is exactly the state `executeEntry`'s container branch hands to its
child loop. -/
def containerChildResults (env : String → ScriptOutcome) (id name : String)
    (children : List ETree) (traceId : Option String) (st : ExecState) :
    List ScriptExecutionResult :=
  let st1 := st.push id
  let (executionId, st2) := st1.generateExecutionId id
  let st3 := st2.logStart (.container id name children) executionId traceId
  (execChildren env children executionId st3).1

/-- The child loop produces one result per child: a failing child does not
shorten the collected list. -/
theorem execChildren_length (env : String → ScriptOutcome)
    (children : List ETree) (eid : String) (st : ExecState) :
    (execChildren env children eid st).1.length = children.length := by
  induction children generalizing st with
  | nil => rfl
  | cons c rest ih => simp [execChildren, ih]

theorem normalizeResult_isSome (r : ScriptExecutionResult)
    (o : NormalizeOptions) :
    (normalizeResult r o).success.isSome ∧
      (normalizeResult r o).errorMessage.isSome := by
  unfold normalizeResult
  rcases o with ⟨os, oe, oc⟩
  rcases r with ⟨rs, re⟩
  cases os <;> cases oe <;> cases rs <;> cases re <;> cases oc <;>
    simp <;> split <;> simp

theorem normalizeResult_childResults (cs : List ScriptExecutionResult) :
    (normalizeResult {} { childResults := some cs }).success =
      some (cs.all fun r => r.success == some true) := by
  unfold normalizeResult
  simp only
  split <;> rfl

/-- Sample script environment: `ok` resolves successfully, `bad` resolves
with `success: false`, anything else rejects. -/
def envSample : String → ScriptOutcome := fun n =>
  if n = "ok" then .ok ⟨some true, none⟩
  else if n = "bad" then .ok ⟨some false, none⟩
  else .err "not found"

/-- A fresh service state: empty stack, sequence `0`, no log store. -/
def stEmpty : ExecState := ⟨[], 0, "session_0", none, 0⟩

/-- Claim C4: executing a container yields `success` equal to the logical
AND of its children's `success` values, evaluated over all children (the
result list has one entry per child even when children fail); children
`[success, failure]` give `success: false`, `[success, success]` give
`success: true`, and a container with zero children gives `success: true`. -/
theorem container_success_aggregates_children :
    (∀ (env : String → ScriptOutcome) (id name : String)
        (children : List ETree) (traceId : Option String) (st : ExecState),
      (executeEntry env (.container id name children) traceId st).1.success =
        some ((containerChildResults env id name children traceId st).all
          (fun r => r.success == some true)) ∧
      (containerChildResults env id name children traceId st).length =
        children.length) ∧
    (executeEntry envSample
      (.container "c" "c" [.block "b1" "ok", .block "b2" "bad"]) none
      stEmpty).1.success = some false ∧
    (executeEntry envSample
      (.container "c" "c" [.block "b1" "ok", .block "b2" "ok"]) none
      stEmpty).1.success = some true ∧
    (executeEntry envSample (.container "c" "c" []) none
      stEmpty).1.success = some true := by
  refine ⟨?_, by decide, by decide, by decide⟩
  intro env id name children traceId st
  constructor
  · simp only [executeEntry, containerChildResults]
    exact normalizeResult_childResults _
  · simp only [containerChildResults]
    exact execChildren_length _ _ _ _

theorem normalizeResult_default_message (r : ScriptExecutionResult)
    (o : NormalizeOptions) (hr : r.errorMessage = none)
    (ho : o.errorMessage = none)
    (hs : (normalizeResult r o).success ≠ some true) :
    (normalizeResult r o).errorMessage = some "Unknown error occurred." := by
  unfold normalizeResult at hs ⊢
  rcases o with ⟨os, oe, oc⟩
  rcases r with ⟨rs, re⟩
  simp only at hr ho
  subst hr
  subst ho
  cases os <;> cases rs <;> cases oc <;> simp_all <;> split <;> simp_all

/-- Claim C5: every `executeEntry` call returns a result object (the
embedded function is total: every inner call catches its own errors, so no
exception reaches the caller), the result always carries a `success` flag
and an `errorMessage`; when the normalization sees no success and no
explicit message the defaults apply, and in particular a block whose
script resolves with `success: false` and no message gets the default
`errorMessage`. -/
theorem executeEntry_always_normalized :
    (∀ (env : String → ScriptOutcome) (entry : ETree)
        (traceId : Option String) (st : ExecState),
      (executeEntry env entry traceId st).1.success.isSome ∧
      (executeEntry env entry traceId st).1.errorMessage.isSome) ∧
    (∀ (r : ScriptExecutionResult) (o : NormalizeOptions),
      r.errorMessage = none → o.errorMessage = none →
      (normalizeResult r o).success ≠ some true →
      (normalizeResult r o).errorMessage =
        some "Unknown error occurred.") ∧
    (∀ (env : String → ScriptOutcome) (id name : String)
        (traceId : Option String) (st : ExecState),
      env name = .ok ⟨some false, none⟩ →
      (executeEntry env (.block id name) traceId st).1.errorMessage =
        some "Unknown error occurred.") := by
  refine ⟨?_, normalizeResult_default_message, ?_⟩
  · intro env entry traceId st
    cases entry with
    | block id name =>
      simp only [executeEntry, executeBlock]
      cases env name <;> exact normalizeResult_isSome _ _
    | container id name children =>
      simp only [executeEntry]
      exact normalizeResult_isSome _ _
  · intro env id name traceId st h
    simp only [executeEntry, executeBlock, h]
    rfl

/-- Claim C5 witness: the defaulting clauses at concrete inputs. -/
theorem executeEntry_always_normalized_witness :
    (normalizeResult ⟨some false, none⟩ {}).errorMessage =
      some "Unknown error occurred." ∧
    (executeEntry envSample (.block "b" "bad") none stEmpty).1.errorMessage =
      some "Unknown error occurred." :=
  ⟨executeEntry_always_normalized.2.1 ⟨some false, none⟩ {} rfl rfl
      (by decide),
   executeEntry_always_normalized.2.2 envSample "b" "bad" none stEmpty
      (by decide)⟩

/-! ## Claim C6 -/

theorem applyEvs_append (s : List String) (es1 es2 : List StackEv) :
    applyEvs s (es1 ++ es2) = applyEvs (applyEvs s es1) es2 :=
  List.foldl_append _ _ _ _

theorem stack_logStart (st : ExecState) (e : ETree) (eid : String)
    (tr : Option String) :
    (st.logStart e eid tr).executionStack = st.executionStack := by
  unfold ExecState.logStart
  split <;> rfl

theorem stack_logEnd (st : ExecState) (eid : String)
    (r : ScriptExecutionResult) :
    (st.logEnd eid r).executionStack = st.executionStack := by
  unfold ExecState.logEnd
  split <;> rfl

mutual

theorem executeEntry_stack_events (env : String → ScriptOutcome)
    (e : ETree) (tr : Option String) (st : ExecState) :
    (executeEntry env e tr st).2.executionStack =
      applyEvs st.executionStack (entryEvents e) := by
  cases e with
  | block id name =>
    simp only [executeEntry, entryEvents, ExecState.pop, stack_logEnd,
      stack_logStart, ExecState.generateExecutionId, ExecState.push,
      applyEvs, applyEv, List.foldl]
  | container id name children =>
    simp only [executeEntry, entryEvents, ExecState.pop]
    rw [stack_logEnd, execChildren_stack_events env children, stack_logStart]
    simp only [ExecState.generateExecutionId, ExecState.push]
    simp [applyEvs, applyEv, List.foldl_append]

theorem execChildren_stack_events (env : String → ScriptOutcome)
    (children : List ETree) (eid : String) (st : ExecState) :
    (execChildren env children eid st).2.executionStack =
      applyEvs st.executionStack (treeListEvents children) := by
  cases children with
  | nil => rfl
  | cons c rest =>
    simp only [execChildren, treeListEvents, applyEvs_append]
    rw [execChildren_stack_events env rest,
      executeEntry_stack_events env c (some eid) st]

end

theorem depthRun_append (a b : List StackEv) (d : Nat) :
    depthRun (a ++ b) d =
      match depthRun a d with
      | some d' => depthRun b d'
      | none => none := by
  induction a generalizing d with
  | nil => rfl
  | cons e rest ih =>
    cases e with
    | push i => simp [depthRun, ih]
    | pop =>
      by_cases hd : d = 0
      · simp [depthRun, hd]
      · simp [depthRun, hd, ih]

mutual

theorem entryEvents_depth (e : ETree) (d : Nat) :
    depthRun (entryEvents e) d = some d := by
  cases e with
  | block id name => simp [entryEvents, depthRun]
  | container id name children =>
    simp only [entryEvents, depthRun]
    rw [show (treeListEvents children).append [StackEv.pop] =
      treeListEvents children ++ [StackEv.pop] from rfl]
    rw [depthRun_append, treeListEvents_depth children (d + 1)]
    simp [depthRun]

theorem treeListEvents_depth (cs : List ETree) (d : Nat) :
    depthRun (treeListEvents cs) d = some d := by
  cases cs with
  | nil => rfl
  | cons c rest =>
    simp only [treeListEvents, depthRun_append, entryEvents_depth c d]
    exact treeListEvents_depth rest d

end

theorem interleave_depthRun {a b c : List StackEv}
    (h : Interleave a b c) :
    ∀ (da db da' db' : Nat), depthRun a da = some da' →
      depthRun b db = some db' → depthRun c (da + db) = some (da' + db') := by
  induction h with
  | nil =>
    intro da db da' db' ha hb
    simp [depthRun] at ha hb ⊢
    omega
  | left e hab ih =>
    intro da db da' db' ha hb
    cases e with
    | push i =>
      simp only [depthRun] at ha ⊢
      have := ih (da + 1) db da' db' ha hb
      have harith : da + 1 + db = da + db + 1 := by omega
      rw [harith] at this
      exact this
    | pop =>
      simp only [depthRun] at ha ⊢
      by_cases hda : da = 0
      · simp [hda] at ha
      · simp only [hda, if_false] at ha
        have hsum : ¬(da + db = 0) := by omega
        simp only [hsum, if_false]
        have := ih (da - 1) db da' db' ha hb
        have harith : da - 1 + db = da + db - 1 := by omega
        rw [harith] at this
        exact this
  | right e hab ih =>
    intro da db da' db' ha hb
    cases e with
    | push i =>
      simp only [depthRun] at hb ⊢
      have := ih da (db + 1) da' db' ha hb
      have harith : da + (db + 1) = da + db + 1 := by omega
      rw [harith] at this
      exact this
    | pop =>
      simp only [depthRun] at hb ⊢
      by_cases hdb : db = 0
      · simp [hdb] at hb
      · simp only [hdb, if_false] at hb
        have hsum : ¬(da + db = 0) := by omega
        simp only [hsum, if_false]
        have := ih da (db - 1) da' db' ha hb
        have harith : da + (db - 1) = da + db - 1 := by omega
        rw [harith] at this
        exact this

theorem applyEvs_length (es : List StackEv) :
    ∀ (s : List String) (d' : Nat),
      depthRun es s.length = some d' → (applyEvs s es).length = d' := by
  induction es with
  | nil =>
    intro s d' h
    simp [depthRun] at h
    simp [applyEvs, h]
  | cons e rest ih =>
    intro s d' h
    cases e with
    | push i =>
      simp only [depthRun] at h
      simp only [applyEvs, List.foldl_cons, applyEv]
      exact ih (s ++ [i]) d' (by simpa using h)
    | pop =>
      simp only [depthRun] at h
      by_cases hs : s.length = 0
      · simp [hs] at h
      · simp only [hs, if_false] at h
        simp only [applyEvs, List.foldl_cons, applyEv]
        refine ih s.dropLast d' ?_
        rw [List.length_dropLast]
        exact h

theorem applyEvs_shift (es : List StackEv) :
    ∀ (s t : List String), (depthRun es t.length).isSome →
      applyEvs (s ++ t) es = s ++ applyEvs t es := by
  induction es with
  | nil => intro s t _; rfl
  | cons e rest ih =>
    intro s t h
    cases e with
    | push i =>
      simp only [applyEvs, List.foldl_cons, applyEv]
      rw [List.append_assoc]
      refine ih s (t ++ [i]) ?_
      simp only [depthRun] at h
      simpa using h
    | pop =>
      simp only [depthRun] at h
      by_cases ht : t.length = 0
      · simp [ht] at h
      · have htne : t ≠ [] := by
          intro hc
          rw [hc] at ht
          simp at ht
        simp only [applyEvs, List.foldl_cons, applyEv]
        rw [List.dropLast_append_of_ne_nil _ htne]
        refine ih s t.dropLast ?_
        rw [List.length_dropLast]
        simpa [ht] using h

theorem applyEvs_balanced_restores (es : List StackEv) (s : List String)
    (h : depthRun es 0 = some 0) : applyEvs s es = s := by
  have h1 : applyEvs ([] : List String) es = [] := by
    have := applyEvs_length es [] 0 (by simpa using h)
    exact List.length_eq_zero.mp this
  calc applyEvs s es = applyEvs (s ++ []) es := by simp
    _ = s ++ applyEvs [] es := applyEvs_shift es s [] (by simp [h])
    _ = s := by simp [h1]

/-- Claim C6: every `executeEntry` invocation pushes exactly one id and
pops exactly one on every exit path — its stack effect is the balanced
event list `entryEvents`, so a completed invocation leaves the stack
exactly as it found it; any interleaving of two invocations' stack events
(two calls issued without awaiting the first) ends with an empty stack;
and `isExecuting()` is `true` exactly when the stack is non-empty. -/
theorem executeEntry_stack_discipline :
    (∀ (env : String → ScriptOutcome) (e : ETree) (tr : Option String)
        (st : ExecState),
      (executeEntry env e tr st).2.executionStack = st.executionStack) ∧
    (∀ st : ExecState, st.isExecuting = true ↔ st.executionStack ≠ []) ∧
    (∀ (env : String → ScriptOutcome) (e : ETree) (tr : Option String)
        (st : ExecState),
      (executeEntry env e tr st).2.executionStack =
        applyEvs st.executionStack (entryEvents e)) ∧
    (∀ (t1 t2 : ETree) (c : List StackEv),
      Interleave (entryEvents t1) (entryEvents t2) c →
      applyEvs [] c = []) := by
  refine ⟨?_, ?_, executeEntry_stack_events, ?_⟩
  · intro env e tr st
    rw [executeEntry_stack_events]
    exact applyEvs_balanced_restores _ _ (entryEvents_depth e 0)
  · intro st
    simp [ExecState.isExecuting, List.length_pos]
  · intro t1 t2 c h
    have hc := interleave_depthRun h 0 0 0 0 (entryEvents_depth t1 0)
      (entryEvents_depth t2 0)
    have := applyEvs_length c [] 0 (by simpa using hc)
    exact List.length_eq_zero.mp this

/-- Claim C6 witness: a concrete interleaving of the stack events of two
block executions empties the stack. -/
theorem executeEntry_stack_discipline_witness :
    applyEvs [] [StackEv.push "a", StackEv.push "b", StackEv.pop,
      StackEv.pop] = [] :=
  executeEntry_stack_discipline.2.2.2 (.block "a" "x") (.block "b" "y") _
    (.left _ (.right _ (.left _ (.right _ .nil))))

/-! ## Claim C8 -/

theorem setAdd_mem (l : List String) (x y : String) :
    y ∈ setAdd l x ↔ y ∈ l ∨ y = x := by
  unfold setAdd
  by_cases h : x ∈ l
  · simp only [h, if_true]
    constructor
    · exact Or.inl
    · rintro (hy | rfl)
      · exact hy
      · exact h
  · simp [h]

theorem setAdd_nodup (l : List String) (x : String) (h : l.Nodup) :
    (setAdd l x).Nodup := by
  unfold setAdd
  by_cases hx : x ∈ l
  · simpa [hx]
  · rw [if_neg hx]
    rw [List.nodup_append]
    exact ⟨h, List.nodup_singleton x, by simpa using fun hc => hx hc⟩

theorem foldl_setAdd_mem (xs l : List String) (y : String) :
    y ∈ xs.foldl setAdd l ↔ y ∈ l ∨ y ∈ xs := by
  induction xs generalizing l with
  | nil => simp
  | cons x rest ih =>
    simp only [List.foldl_cons, ih, setAdd_mem, List.mem_cons]
    constructor
    · rintro ((hy | rfl) | hy)
      · exact Or.inl hy
      · exact Or.inr (Or.inl rfl)
      · exact Or.inr (Or.inr hy)
    · rintro (hy | rfl | hy)
      · exact Or.inl (Or.inl hy)
      · exact Or.inl (Or.inr rfl)
      · exact Or.inr hy

theorem foldl_setAdd_nodup (xs l : List String) (h : l.Nodup) :
    (xs.foldl setAdd l).Nodup := by
  induction xs generalizing l with
  | nil => exact h
  | cons x rest ih => exact ih _ (setAdd_nodup _ _ h)

/-- Transitive membership below an entry, following registered container
records' `children` arrays; this is the specification-side descendant
relation `getAllDescendantIds` is meant to enumerate. -/
inductive DescendantOf (m : EntryManager) : String → String → Prop where
  | refl (a : String) : DescendantOf m a a
  | step {a b c : String} (e : Entry) : DescendantOf m a b →
      mapGet m.entriesById b = some e → e.type = EKind.container →
      c ∈ e.children → DescendantOf m a c

theorem descendantOf_trans {m : EntryManager} {a b c : String}
    (h1 : DescendantOf m a b) (h2 : DescendantOf m b c) :
    DescendantOf m a c := by
  induction h2 with
  | refl => exact h1
  | step e hbc hget htype hmem ih => exact .step e ih hget htype hmem

theorem descendantOf_cases {m : EntryManager} {a x : String}
    (h : DescendantOf m a x) :
    x = a ∨ ∃ (e : Entry), mapGet m.entriesById a = some e ∧
      e.type = EKind.container ∧ ∃ c ∈ e.children, DescendantOf m c x := by
  induction h with
  | refl => exact Or.inl rfl
  | step e hab hget htype hmem ih =>
    rcases ih with rfl | ⟨e0, ha, ht0, c0, hc0, hdesc⟩
    · exact Or.inr ⟨e, hget, htype, _, hmem, .refl _⟩
    · exact Or.inr ⟨e0, ha, ht0, c0, hc0, .step e hdesc hget htype hmem⟩

theorem children_fold_mem (m : EntryManager) (fuel : Nat)
    (cids : List String) (acc : List String) (y : String) :
    (y ∈ cids.foldl
      (fun a c => (EntryManager.getAllDescendantIds m fuel c).foldl setAdd a)
      acc) ↔
    y ∈ acc ∨ ∃ c ∈ cids, y ∈ EntryManager.getAllDescendantIds m fuel c := by
  induction cids generalizing acc with
  | nil => simp
  | cons c rest ih =>
    simp only [List.foldl_cons, ih, foldl_setAdd_mem, List.mem_cons]
    constructor
    · rintro ((hy | hy) | ⟨c', hc', hy⟩)
      · exact Or.inl hy
      · exact Or.inr ⟨c, Or.inl rfl, hy⟩
      · exact Or.inr ⟨c', Or.inr hc', hy⟩
    · rintro (hy | ⟨c', (rfl | hc'), hy⟩)
      · exact Or.inl (Or.inl hy)
      · exact Or.inl (Or.inr hy)
      · exact Or.inr ⟨c', hc', hy⟩

theorem children_fold_nodup (m : EntryManager) (fuel : Nat)
    (cids : List String) (acc : List String) (h : acc.Nodup) :
    (cids.foldl
      (fun a c => (EntryManager.getAllDescendantIds m fuel c).foldl setAdd a)
      acc).Nodup := by
  induction cids generalizing acc with
  | nil => exact h
  | cons c rest ih => exact ih _ (foldl_setAdd_nodup _ _ h)

theorem getAllDescendantIds_spec_aux :
    ∀ (m : EntryManager) (mu : String → Nat),
      (∀ (p : String) (pe : Entry), mapGet m.entriesById p = some pe →
        pe.type = EKind.container → ∀ c ∈ pe.children, mu c < mu p) →
      ∀ (fuel : Nat) (id : String), mu id < fuel →
      (∀ x, x ∈ EntryManager.getAllDescendantIds m fuel id ↔
        DescendantOf m id x) ∧
      (EntryManager.getAllDescendantIds m fuel id).Nodup := by
  intro m mu hmu fuel
  induction fuel with
  | zero => intro id h; exact absurd h (Nat.not_lt_zero _)
  | succ fuel ih =>
    intro id hid
    unfold EntryManager.getAllDescendantIds
    cases hget : mapGet m.entriesById id with
    | none =>
      dsimp only
      refine ⟨?_, List.nodup_singleton _⟩
      intro x
      simp only [List.mem_singleton]
      constructor
      · rintro rfl
        exact .refl _
      · intro h
        rcases descendantOf_cases h with rfl | ⟨e, ha, _⟩
        · rfl
        · rw [hget] at ha
          cases ha
    | some entry =>
      dsimp only
      by_cases htype : entry.type = EKind.container
      · rw [if_pos htype]
        refine ⟨?_, children_fold_nodup _ _ _ _ (List.nodup_singleton _)⟩
        intro x
        rw [children_fold_mem]
        simp only [List.mem_singleton]
        constructor
        · rintro (rfl | ⟨c, hc, hx⟩)
          · exact .refl _
          · have hlt : mu c < fuel := by
              have := hmu id entry hget htype c hc
              omega
            have hdesc := ((ih c hlt).1 x).mp hx
            exact descendantOf_trans (.step entry (.refl id) hget htype hc)
              hdesc
        · intro h
          rcases descendantOf_cases h with rfl | ⟨e, ha, ht, c, hc, hdesc⟩
          · exact Or.inl rfl
          · rw [hget] at ha
            cases ha
            refine Or.inr ⟨c, hc, ?_⟩
            have hlt : mu c < fuel := by
              have := hmu id entry hget ht c hc
              omega
            exact ((ih c hlt).1 x).mpr hdesc
      · rw [if_neg htype]
        refine ⟨?_, List.nodup_singleton _⟩
        intro x
        simp only [List.mem_singleton]
        constructor
        · rintro rfl
          exact .refl _
        · intro h
          rcases descendantOf_cases h with rfl | ⟨e, ha, ht, _⟩
          · rfl
          · rw [hget] at ha
            cases ha
            exact absurd ht htype

/-- Claim C8: for every registered id, `descendantIds(id)` returns, as a
duplicate-free list (each id once, so its size is the subtree size and the
set is independent of traversal order), exactly `{id}` united with the ids
of all transitively nested children when `id` names a container, and
exactly `[id]` when `id` names a block; the fuel is adequate whenever the
child graph admits a strictly decreasing measure, which the forest
invariant guarantees. -/
theorem getAllDescendantIds_complete :
    (∀ (m : EntryManager) (mu : String → Nat),
      (∀ (p : String) (pe : Entry), mapGet m.entriesById p = some pe →
        pe.type = EKind.container → ∀ c ∈ pe.children, mu c < mu p) →
      ∀ (fuel : Nat) (id : String), mu id < fuel →
      (∀ x, x ∈ EntryManager.getAllDescendantIds m fuel id ↔
        DescendantOf m id x) ∧
      (EntryManager.getAllDescendantIds m fuel id).Nodup) ∧
    (∀ (m : EntryManager) (id : String) (e : Entry) (fuel : Nat),
      mapGet m.entriesById id = some e → e.type = EKind.block →
      EntryManager.getAllDescendantIds m fuel id = [id]) := by
  refine ⟨getAllDescendantIds_spec_aux, ?_⟩
  intro m id e fuel hget ht
  cases fuel with
  | zero => rfl
  | succ fuel =>
    unfold EntryManager.getAllDescendantIds
    rw [hget]
    dsimp only
    rw [if_neg (fun hc => by rw [ht] at hc; cases hc)]

/-- Claim C8 witness: the `[A,B,C]` container registry with measure
`P ↦ 1, _ ↦ 0` and fuel `2`. -/
theorem getAllDescendantIds_witness :
    (("A" ∈ EntryManager.getAllDescendantIds regABC 2 "P") ↔
      DescendantOf regABC "P" "A") ∧
    (EntryManager.getAllDescendantIds regABC 2 "P").Nodup ∧
    EntryManager.getAllDescendantIds regABC 1 "A" = ["A"] := by
  have hmu : ∀ (p : String) (pe : Entry),
      mapGet regABC.entriesById p = some pe → pe.type = EKind.container →
      ∀ c ∈ pe.children,
        (fun s => if s = "P" then 1 else 0 : String → Nat) c <
        (fun s => if s = "P" then 1 else 0 : String → Nat) p := by
    intro p pe hp ht c hc
    have hmem := mapGet_mem hp
    simp [regABC] at hmem
    rcases hmem with ⟨rfl, rfl⟩ | ⟨rfl, rfl⟩ | ⟨rfl, rfl⟩ | ⟨rfl, rfl⟩
    · simp [entP] at hc
      rcases hc with rfl | rfl | rfl <;> decide
    · exact absurd ht (by decide)
    · exact absurd ht (by decide)
    · exact absurd ht (by decide)
  have h := getAllDescendantIds_complete.1 regABC _ hmu 2 "P" (by decide)
  exact ⟨h.1 "A", h.2,
    getAllDescendantIds_complete.2 regABC "A" entA 1 (by decide) (by decide)⟩

/-! ## Claim C7 -/

theorem removeExecution_empty (fuel : Nat) (eid : String) :
    ExecutionLogService.removeExecution fuel [] eid = [] := by
  cases fuel <;> rfl

theorem removeExecution_fold_empty (fuel : Nat) (roots : List LogRecord) :
    roots.foldl
      (fun b ex => ExecutionLogService.removeExecution fuel b ex.executionId)
      [] = [] := by
  induction roots with
  | nil => rfl
  | cons r rest ih => simpa [removeExecution_empty] using ih

/-- Root-only insertion: one `addLog` with no parent keeps the buckets
empty and the root count at most the ceiling. -/
theorem addLog_root_invariant (s : ExecutionLogService) (entry : EntrySnap)
    (eid : String) (now : Nat) (hb : s.executionsByParent = [])
    (hn : s.rootExecutions.length ≤ logMaxLogs) :
    (s.addLog entry eid none now).executionsByParent = [] ∧
    (s.addLog entry eid none now).rootExecutions.length ≤ logMaxLogs := by
  unfold ExecutionLogService.addLog
  dsimp only
  rw [hb]
  set rec := ExecutionLogService.mkRecord entry eid none now with hrec
  by_cases hcount : ExecutionLogService.getExecutionCount
      ⟨s.rootExecutions ++ [rec], []⟩ > logMaxLogs
  · have hcount' : s.rootExecutions.length + 1 > logMaxLogs := by
      simpa [ExecutionLogService.getExecutionCount] using hcount
    rw [if_pos ?side]
    case side =>
      simpa [ExecutionLogService.getExecutionCount, hb] using hcount
    unfold ExecutionLogService.cleanupExecutions
    rw [if_pos (by simp [logCleanupBatchSize])]
    dsimp only
    constructor
    · exact removeExecution_fold_empty _ _
    · simp only [List.length_drop, List.length_append, List.length_cons,
        List.length_nil]
      simp only [logMaxLogs, logCleanupBatchSize] at hcount' hn ⊢
      omega
  · rw [if_neg (by simpa [ExecutionLogService.getExecutionCount, hb]
      using hcount)]
    have hcount' : ¬(s.rootExecutions.length + 1 > logMaxLogs) := by
      simpa [ExecutionLogService.getExecutionCount] using hcount
    refine ⟨rfl, ?_⟩
    simp only [List.length_append, List.length_cons, List.length_nil]
    omega

/-- A sequence of root-record insertions (entry snapshot, execution id,
clock value per record). -/
def addRootLogs (s : ExecutionLogService)
    (recs : List (EntrySnap × String × Nat)) : ExecutionLogService :=
  recs.foldl (fun acc r => acc.addLog r.1 r.2.1 none r.2.2) s

theorem addRootLogs_bound :
    ∀ (recs : List (EntrySnap × String × Nat)) (s : ExecutionLogService),
      s.executionsByParent = [] → s.rootExecutions.length ≤ logMaxLogs →
      (addRootLogs s recs).executionsByParent = [] ∧
      ExecutionLogService.getExecutionCount (addRootLogs s recs) ≤
        logMaxLogs := by
  intro recs
  induction recs with
  | nil =>
    intro s hb hn
    refine ⟨hb, ?_⟩
    simp [addRootLogs, ExecutionLogService.getExecutionCount, hb, hn]
  | cons r rest ih =>
    intro s hb hn
    have hstep := addLog_root_invariant s r.1 r.2.1 r.2.2 hb hn
    exact ih _ hstep.1 hstep.2

theorem addLog_eviction_fifo (s : ExecutionLogService) (entry : EntrySnap)
    (eid : String) (now : Nat)
    (h : ExecutionLogService.getExecutionCount
      ⟨s.rootExecutions ++ [ExecutionLogService.mkRecord entry eid none now],
        s.executionsByParent⟩ > logMaxLogs) :
    (s.addLog entry eid none now).rootExecutions =
      (s.rootExecutions ++
        [ExecutionLogService.mkRecord entry eid none now]).drop
        (min logCleanupBatchSize (s.rootExecutions.length + 1)) := by
  unfold ExecutionLogService.addLog
  dsimp only
  rw [if_pos h]
  unfold ExecutionLogService.cleanupExecutions
  rw [if_pos (by simp [logCleanupBatchSize])]
  dsimp only
  simp

/-- A working bucket dictionary obtained from `b0` by deletions only. -/
def BSub (b b0 : List (String × List LogRecord)) : Prop :=
  ∀ k, mapGet b k = none ∨ mapGet b k = mapGet b0 k

/-- Every deleted key has its original children deleted too. -/
def BClosed (b b0 : List (String × List LogRecord)) : Prop :=
  ∀ j, mapGet b j = none → ∀ l, mapGet b0 j = some l →
    ∀ r ∈ l, mapGet b r.executionId = none

theorem bsub_refl (b0 : List (String × List LogRecord)) : BSub b0 b0 :=
  fun _ => Or.inr rfl

theorem bclosed_refl (b0 : List (String × List LogRecord)) :
    BClosed b0 b0 := by
  intro j hj l hl
  rw [hj] at hl
  cases hl

theorem bsub_mapDel {b b0 : List (String × List LogRecord)} (h : BSub b b0)
    (k : String) : BSub (mapDel b k) b0 := by
  intro j
  rcases mapGet_mapDel_sub b k j with hj | hj
  · exact Or.inl hj
  · rw [hj]
    exact h j

theorem bclosed_mapDel_of_children_gone
    {b b0 : List (String × List LogRecord)}
    (hC : BClosed b b0) (k : String)
    (hch : ∀ l, mapGet b0 k = some l → ∀ r ∈ l,
      mapGet b r.executionId = none) : BClosed (mapDel b k) b0 := by
  intro j hj l hl r hr
  by_cases hjk : j = k
  · subst hjk
    rcases mapGet_mapDel_sub b j r.executionId with hd | hd
    · exact hd
    · rw [hd]
      exact hch l hl r hr
  · rw [mapGet_mapDel_ne b (fun hc => hjk hc.symm)] at hj
    rcases mapGet_mapDel_sub b k r.executionId with hd | hd
    · exact hd
    · rw [hd]
      exact hC j hj l hl r hr

/-- `_removeExecution` only deletes: it preserves `BSub`/`BClosed` relative
to the original dictionary, never resurrects a deleted key, and deletes the
key it was asked to remove — all under a strictly decreasing measure on the
original parent→children graph and enough fuel. -/
theorem removeExecution_spec (b0 : List (String × List LogRecord))
    (mu : String → Nat)
    (hmu : ∀ j l, mapGet b0 j = some l → ∀ r ∈ l,
      mu r.executionId < mu j) :
    ∀ (fuel : Nat) (k : String) (b : List (String × List LogRecord)),
      BSub b b0 → BClosed b b0 → mu k < fuel →
      BSub (ExecutionLogService.removeExecution fuel b k) b0 ∧
      BClosed (ExecutionLogService.removeExecution fuel b k) b0 ∧
      (∀ d, mapGet b d = none →
        mapGet (ExecutionLogService.removeExecution fuel b k) d = none) ∧
      mapGet (ExecutionLogService.removeExecution fuel b k) k = none := by
  intro fuel
  induction fuel with
  | zero => intro k b _ _ hk; exact absurd hk (Nat.not_lt_zero _)
  | succ fuel ih =>
    intro k b hS hC hk
    have hfold : ∀ (cs : List LogRecord) (b1 : List (String × List LogRecord)),
        BSub b1 b0 → BClosed b1 b0 →
        (∀ r ∈ cs, mu r.executionId < fuel) →
        BSub (cs.foldl (fun acc c =>
          ExecutionLogService.removeExecution fuel acc c.executionId) b1) b0 ∧
        BClosed (cs.foldl (fun acc c =>
          ExecutionLogService.removeExecution fuel acc c.executionId) b1) b0 ∧
        (∀ d, mapGet b1 d = none →
          mapGet (cs.foldl (fun acc c =>
            ExecutionLogService.removeExecution fuel acc c.executionId) b1)
            d = none) ∧
        (∀ r ∈ cs,
          mapGet (cs.foldl (fun acc c =>
            ExecutionLogService.removeExecution fuel acc c.executionId) b1)
            r.executionId = none) := by
      intro cs
      induction cs with
      | nil =>
        intro b1 hS1 hC1 _
        exact ⟨hS1, hC1, fun d hd => hd, fun r hr => absurd hr
          (List.not_mem_nil r)⟩
      | cons c rest ihc =>
        intro b1 hS1 hC1 hlt
        have hc := ih c.executionId b1 hS1 hC1
          (hlt c (List.mem_cons_self c rest))
        have hrest := ihc _ hc.1 hc.2.1
          (fun r hr => hlt r (List.mem_cons_of_mem c hr))
        simp only [List.foldl_cons]
        refine ⟨hrest.1, hrest.2.1, ?_, ?_⟩
        · intro d hd
          exact hrest.2.2.1 d (hc.2.2.1 d hd)
        · intro r hr
          rcases List.mem_cons.mp hr with rfl | hr'
          · exact hrest.2.2.1 _ hc.2.2.2
          · exact hrest.2.2.2 r hr'
    show BSub (ExecutionLogService.removeExecution (fuel + 1) b k) b0 ∧ _
    unfold ExecutionLogService.removeExecution
    dsimp only
    cases hbk : mapGet b k with
    | none =>
      simp only [Option.getD_none, List.foldl_nil]
      have hch : ∀ l, mapGet b0 k = some l → ∀ r ∈ l,
          mapGet b r.executionId = none := fun l hl r hr =>
        hC k hbk l hl r hr
      refine ⟨bsub_mapDel hS k, bclosed_mapDel_of_children_gone hC k hch,
        ?_, mapGet_mapDel_self b k⟩
      intro d hd
      rcases mapGet_mapDel_sub b k d with h | h
      · exact h
      · rw [h]
        exact hd
    | some l =>
      simp only [Option.getD_some]
      have hb0k : mapGet b0 k = some l := by
        rcases hS k with h | h
        · rw [hbk] at h
          cases h
        · rw [← h, hbk]
      have hlt : ∀ r ∈ l, mu r.executionId < fuel := by
        intro r hr
        have := hmu k l hb0k r hr
        omega
      have hf := hfold l b hS hC hlt
      have hch : ∀ l', mapGet b0 k = some l' → ∀ r ∈ l',
          mapGet (l.foldl (fun acc c =>
            ExecutionLogService.removeExecution fuel acc c.executionId) b)
            r.executionId = none := by
        intro l' hl' r hr
        rw [hb0k] at hl'
        cases hl'
        exact hf.2.2.2 r hr
      refine ⟨bsub_mapDel hf.1 k,
        bclosed_mapDel_of_children_gone hf.2.1 k hch, ?_,
        mapGet_mapDel_self _ k⟩
      intro d hd
      rcases mapGet_mapDel_sub (l.foldl (fun acc c =>
        ExecutionLogService.removeExecution fuel acc c.executionId) b) k d
        with h | h
      · exact h
      · rw [h]
        exact hf.2.2.1 d hd

/-- Transitive parenthood in the bucket dictionary: `BReach b0 k d` holds
when `d` is `k` itself or the execution id of a record filed (transitively)
under `k`. -/
inductive BReach (b0 : List (String × List LogRecord)) :
    String → String → Prop where
  | refl (k : String) : BReach b0 k k
  | step {k j : String} (l : List LogRecord) (r : LogRecord) :
      BReach b0 k j → mapGet b0 j = some l → r ∈ l →
      BReach b0 k r.executionId

theorem breach_none {b0 b : List (String × List LogRecord)}
    (hC : BClosed b b0) {k : String} (hk : mapGet b k = none) :
    ∀ {d}, BReach b0 k d → mapGet b d = none := by
  intro d h
  induction h with
  | refl => exact hk
  | step l r hkj hj hr ihr => exact hC _ ihr l hj r hr

theorem removeExecution_fold_spec (b0 : List (String × List LogRecord))
    (mu : String → Nat)
    (hmu : ∀ j l, mapGet b0 j = some l → ∀ r ∈ l,
      mu r.executionId < mu j) (fuel : Nat)
    (hfuel : ∀ k, mu k < fuel) :
    ∀ (roots : List LogRecord) (b : List (String × List LogRecord)),
      BSub b b0 → BClosed b b0 →
      BClosed (roots.foldl (fun acc ex =>
        ExecutionLogService.removeExecution fuel acc ex.executionId) b) b0 ∧
      (∀ r ∈ roots, mapGet (roots.foldl (fun acc ex =>
        ExecutionLogService.removeExecution fuel acc ex.executionId) b)
        r.executionId = none) := by
  intro roots
  induction roots with
  | nil =>
    intro b _ hC
    exact ⟨hC, fun r hr => absurd hr (List.not_mem_nil r)⟩
  | cons c rest ihc =>
    intro b hS hC
    have hc := removeExecution_spec b0 mu hmu fuel c.executionId b hS hC
      (hfuel c.executionId)
    have hrest := ihc _ hc.1 hc.2.1
    simp only [List.foldl_cons]
    refine ⟨hrest.1, ?_⟩
    intro r hr
    rcases List.mem_cons.mp hr with rfl | hr'
    · -- monotone: once deleted, stays deleted through the rest of the fold
      have hmono : ∀ (rs : List LogRecord)
          (b1 : List (String × List LogRecord)), BSub b1 b0 → BClosed b1 b0 →
          ∀ d, mapGet b1 d = none →
          mapGet (rs.foldl (fun acc ex =>
            ExecutionLogService.removeExecution fuel acc ex.executionId) b1)
            d = none := by
        intro rs
        induction rs with
        | nil => intro b1 _ _ d hd; exact hd
        | cons x xs ihx =>
          intro b1 hS1 hC1 d hd
          have hx := removeExecution_spec b0 mu hmu fuel x.executionId b1
            hS1 hC1 (hfuel x.executionId)
          simp only [List.foldl_cons]
          exact ihx _ hx.1 hx.2.1 d (hx.2.2.1 d hd)
      exact hmono rest _ hc.1 hc.2.1 _ hc.2.2.2
    · exact hrest.2 r hr'

/-- `_cleanupExecutions` deletes, for every evicted root, the bucket of
every record transitively parented under it. -/
theorem cleanupExecutions_orphan_free (s : ExecutionLogService)
    (count : Nat) (mu : String → Nat)
    (hmu : ∀ j l, mapGet s.executionsByParent j = some l → ∀ r ∈ l,
      mu r.executionId < mu j)
    (hfuel : ∀ k, mu k < s.executionsByParent.length + 1) :
    ∀ root ∈ s.rootExecutions.take (min count s.rootExecutions.length),
      ∀ d, BReach s.executionsByParent root.executionId d →
        mapGet (ExecutionLogService.cleanupExecutions s count).executionsByParent
          d = none := by
  intro root hroot d hreach
  unfold ExecutionLogService.cleanupExecutions
  by_cases hcond : s.rootExecutions.length > 0 ∧ count > 0
  · rw [if_pos hcond]
    dsimp only
    have hfold := removeExecution_fold_spec s.executionsByParent mu hmu
      (s.executionsByParent.length + 1) hfuel
      (s.rootExecutions.take (min count s.rootExecutions.length))
      s.executionsByParent (bsub_refl _) (bclosed_refl _)
    exact breach_none hfold.1 (hfold.2 root hroot) hreach
  · exfalso
    rcases Nat.eq_zero_or_pos s.rootExecutions.length with hz | hp
    · rw [Nat.min_comm, Nat.min_eq_left (by omega)] at hroot
      rw [hz] at hroot
      simp at hroot
    · have hcz : count = 0 := by
        by_contra hc
        exact hcond ⟨hp, Nat.pos_of_ne_zero hc⟩
      rw [hcz] at hroot
      simp at hroot

/-- Claim C7: whenever `addLog` pushes the total record count above the
configured maximum the store evicts the oldest root records in FIFO
insertion order (the new root list is the old one with the batch-sized
prefix dropped) together with every record transitively parented under
each evicted root (buckets deleted), so any sequence of root-record
insertions — in particular `maxLogs + batchSize + 1` of them — keeps the
total stored record count at most `maxLogs`, and the forest never keeps
the bucket of a record reachable from an evicted root. -/
theorem log_eviction_bounded_fifo_transitive :
    (∀ (recs : List (EntrySnap × String × Nat)) (s : ExecutionLogService),
      s.executionsByParent = [] → s.rootExecutions.length ≤ logMaxLogs →
      (addRootLogs s recs).executionsByParent = [] ∧
      ExecutionLogService.getExecutionCount (addRootLogs s recs) ≤
        logMaxLogs) ∧
    (∀ (s : ExecutionLogService) (entry : EntrySnap) (eid : String)
        (now : Nat),
      ExecutionLogService.getExecutionCount
        ⟨s.rootExecutions ++
          [ExecutionLogService.mkRecord entry eid none now],
          s.executionsByParent⟩ > logMaxLogs →
      (s.addLog entry eid none now).rootExecutions =
        (s.rootExecutions ++
          [ExecutionLogService.mkRecord entry eid none now]).drop
          (min logCleanupBatchSize (s.rootExecutions.length + 1))) ∧
    (∀ (s : ExecutionLogService) (count : Nat) (mu : String → Nat),
      (∀ j l, mapGet s.executionsByParent j = some l → ∀ r ∈ l,
        mu r.executionId < mu j) →
      (∀ k, mu k < s.executionsByParent.length + 1) →
      ∀ root ∈ s.rootExecutions.take (min count s.rootExecutions.length),
        ∀ d, BReach s.executionsByParent root.executionId d →
          mapGet
            (ExecutionLogService.cleanupExecutions s count).executionsByParent
            d = none) :=
  ⟨addRootLogs_bound, addLog_eviction_fifo, cleanupExecutions_orphan_free⟩

def snapE : EntrySnap := ⟨"e", "e", EKind.block⟩

def bigRoots : List LogRecord :=
  (List.range 1001).map
    (fun i => ExecutionLogService.mkRecord snapE (toString i) none 0)

def sBig : ExecutionLogService := ⟨bigRoots, []⟩

def recR : LogRecord :=
  ExecutionLogService.mkRecord ⟨"e", "e", EKind.container⟩ "r" none 0
def recA : LogRecord := ExecutionLogService.mkRecord snapE "a" (some "r") 0
def recB : LogRecord := ExecutionLogService.mkRecord snapE "b" (some "a") 0

/-- A store with one root `r`, a child `a` under `r` and a grandchild `b`
under `a`. -/
def sNested : ExecutionLogService :=
  ⟨[recR], [("r", [recA]), ("a", [recB])]⟩

/-- Claim C7 witness: two root inserts from the empty store, an insert
into a store holding `1001` roots, and the eviction of a two-level nested
root. -/
theorem log_eviction_witness :
    ((addRootLogs ExecutionLogService.init
      [(snapE, "x1", 0), (snapE, "x2", 1)]).executionsByParent = [] ∧
      ExecutionLogService.getExecutionCount (addRootLogs
        ExecutionLogService.init [(snapE, "x1", 0), (snapE, "x2", 1)]) ≤
        logMaxLogs) ∧
    (sBig.addLog snapE "z" none 0).rootExecutions =
      (sBig.rootExecutions ++
        [ExecutionLogService.mkRecord snapE "z" none 0]).drop
        (min logCleanupBatchSize (sBig.rootExecutions.length + 1)) ∧
    mapGet
      (ExecutionLogService.cleanupExecutions sNested 100).executionsByParent
      "b" = none := by
  refine ⟨log_eviction_bounded_fifo_transitive.1 _ _ rfl (by decide),
    log_eviction_bounded_fifo_transitive.2.1 sBig snapE "z" 0 ?_, ?_⟩
  · simp only [ExecutionLogService.getExecutionCount, sBig, bigRoots,
      List.foldl_nil, List.length_append, List.length_map,
      List.length_range, List.length_cons, List.length_nil, logMaxLogs]
    omega
  · have hmu : ∀ j l, mapGet sNested.executionsByParent j = some l →
        ∀ r ∈ l, (fun k => if k = "r" then 2 else if k = "a" then 1 else 0 :
          String → Nat) r.executionId <
          (fun k => if k = "r" then 2 else if k = "a" then 1 else 0) j := by
      intro j l hj r hr
      have hmem := mapGet_mem hj
      simp [sNested] at hmem
      rcases hmem with ⟨rfl, rfl⟩ | ⟨rfl, rfl⟩
      · simp at hr
        subst hr
        decide
      · simp at hr
        subst hr
        decide
    have hfuel : ∀ k, (fun k => if k = "r" then 2 else if k = "a" then 1
        else 0 : String → Nat) k < sNested.executionsByParent.length + 1 := by
      intro k
      by_cases h1 : k = "r" <;> by_cases h2 : k = "a" <;>
        simp [sNested, h1, h2]
    have hreach : BReach sNested.executionsByParent "r" "b" := by
      have h1 : BReach sNested.executionsByParent "r" "r" := .refl _
      have h2 : BReach sNested.executionsByParent "r" "a" :=
        .step [recA] recA h1 (by decide) (by decide)
      exact .step [recB] recB h2 (by decide) (by decide)
    exact log_eviction_bounded_fifo_transitive.2.2 sNested 100 _ hmu hfuel
      recR (by decide) "b" hreach

/-! ## Claim C1 -/

/-- Iterated parent lookup (`n` steps up the `parentIdById` chain). -/
def parentIterN (m : EntryManager) : Nat → String → Option String
  | 0, id => some id
  | n + 1, id =>
    match mapGet m.parentIdById id with
    | none => none
    | some p => parentIterN m n p

/-- The §3 forest invariant: no id is its own (proper) ancestor. -/
def NoSelfAncestor (m : EntryManager) : Prop :=
  ∀ id n, 0 < n → parentIterN m n id ≠ some id

/-- The §3 link invariant: every child in `parentIdByChildId` is
registered, and its recorded parent is a registered container whose
`children` contains the child exactly once. -/
def LinkInv (m : EntryManager) : Prop :=
  ∀ c p, mapGet m.parentIdById c = some p →
    (mapGet m.entriesById c).isSome ∧
    ∃ pe, mapGet m.entriesById p = some pe ∧ pe.type = EKind.container ∧
      pe.children.count c = 1

/-- Every member of a registered record's `children` array is linked back
to that record in `parentIdByChildId`. -/
def ChildrenLinked (m : EntryManager) : Prop :=
  ∀ p pe, mapGet m.entriesById p = some pe → ∀ c ∈ pe.children,
    mapGet m.parentIdById c = some p

theorem removeEntry_false_unchanged :
    ∀ (m : EntryManager) (id : String),
      (EntryManager.removeEntry m id).1 = false →
      (EntryManager.removeEntry m id).2 = m := by
  intro m id h
  unfold EntryManager.removeEntry at h ⊢
  repeat' split at h
  all_goals first | rfl | simp_all

theorem reorderEntry_false_unchanged :
    ∀ (m : EntryManager) (pid id : String) (index : Int),
      (EntryManager.reorderEntry m pid id index).1 = false →
      (EntryManager.reorderEntry m pid id index).2 = m := by
  intro m pid id index h
  unfold EntryManager.reorderEntry at h ⊢
  repeat' split at h
  all_goals first | rfl | simp_all

theorem addEntry_invalid_parent_unchanged :
    ∀ (m : EntryManager) (pid : String) (entry : Entry) (index : Int),
      (∀ q, mapGet m.entriesById pid = some q →
        q.type ≠ EKind.container) →
      EntryManager.addEntry m (some pid) entry index = (false, m) := by
  intro m pid entry index h
  rcases hq : mapGet m.entriesById pid with _ | q
  · simp only [EntryManager.addEntry, hq]
  · simp only [EntryManager.addEntry, hq]
    rw [if_pos (h q hq)]

theorem addEntry_fresh_preserves_links :
    ∀ (m : EntryManager) (pid : String) (entry : Entry) (index : Int),
      LinkInv m → ChildrenLinked m →
      mapGet m.entriesById entry.id = none →
      entry.id ≠ "" →
      entry.children = [] →
      (EntryManager.addEntry m (some pid) entry index).1 = true →
      LinkInv (EntryManager.addEntry m (some pid) entry index).2 ∧
      ChildrenLinked (EntryManager.addEntry m (some pid) entry index).2 := by
  intro m pid entry index hL hK hfresh hid hch htrue
  have hfresh_nochild : ∀ p' pe', mapGet m.entriesById p' = some pe' →
      entry.id ∉ pe'.children := by
    intro p' pe' hp' hc
    have hl := hK p' pe' hp' entry.id hc
    have hs := (hL entry.id p' hl).1
    rw [hfresh] at hs
    simp at hs
  rcases hq : mapGet m.entriesById pid with _ | pe
  · exfalso
    rw [addEntry_invalid_parent_unchanged m pid entry index
      (fun q hq' => by rw [hq] at hq'; cases hq')] at htrue
    simp at htrue
  · by_cases htype : pe.type = EKind.container
    · by_cases hrange : 0 ≤ index ∧ index ≤ (pe.children.length : Int)
      · have hpidne : entry.id ≠ pid := by
          intro hc
          rw [hc, hq] at hfresh
          cases hfresh
        have count0 : pe.children.count entry.id = 0 :=
          List.count_eq_zero.mpr (hfresh_nochild pid pe hq)
        have heq : EntryManager.addEntry m (some pid) entry index =
            (true, ⟨mapSet (mapSet m.entriesById entry.id entry) pid
              (pe.withChildren (jsSpliceIns pe.children index entry.id)),
              mapSet m.parentIdById entry.id pid⟩) := by
          simp only [EntryManager.addEntry, hq, htype,
            EntryManager.registerEntry, ne_eq, not_true_eq_false, if_false,
            if_pos hrange, if_neg hid, if_neg hpidne, Entry.withChildren]
        rw [heq]
        constructor
        · intro c p hcp
          by_cases hc : c = entry.id
          · subst hc
            rw [mapGet_mapSet_self] at hcp
            cases hcp
            constructor
            · rw [mapGet_mapSet_ne _ _ (Ne.symm hpidne),
                mapGet_mapSet_self]
              rfl
            · refine ⟨pe.withChildren
                (jsSpliceIns pe.children index entry.id),
                mapGet_mapSet_self _ _ _, by simpa [Entry.withChildren]
                  using htype, ?_⟩
              simp only [Entry.withChildren]
              rw [jsSpliceIns_count, count0]
          · rw [mapGet_mapSet_ne _ _ (fun he => hc he.symm)] at hcp
            obtain ⟨hreg, pe', hpe', htype', hcount'⟩ := hL c p hcp
            constructor
            · by_cases hcpid : c = pid
              · subst hcpid
                rw [mapGet_mapSet_self]
                rfl
              · rw [mapGet_mapSet_ne _ _ (fun he => hcpid he.symm),
                  mapGet_mapSet_ne _ _ (fun he => hc he.symm)]
                exact hreg
            · by_cases hpentry : p = entry.id
              · exfalso
                subst hpentry
                rw [hfresh] at hpe'
                cases hpe'
              · by_cases hppid : p = pid
                · subst hppid
                  rw [hq] at hpe'
                  cases hpe'
                  refine ⟨pe.withChildren
                    (jsSpliceIns pe.children index entry.id),
                    mapGet_mapSet_self _ _ _, by simpa [Entry.withChildren]
                      using htype', ?_⟩
                  simp only [Entry.withChildren]
                  rw [jsSpliceIns_count_ne _ _ (fun he => hc he.symm)]
                  exact hcount'
                · refine ⟨pe', ?_, htype', hcount'⟩
                  rw [mapGet_mapSet_ne _ _ (fun he => hppid he.symm),
                    mapGet_mapSet_ne _ _ (fun he => hpentry he.symm)]
                  exact hpe'
        · intro p' pe3 hp3 c hc
          by_cases hppid : p' = pid
          · subst hppid
            rw [mapGet_mapSet_self] at hp3
            cases hp3
            simp only [Entry.withChildren] at hc
            rcases (jsSpliceIns_mem pe.children index entry.id c).mp hc
              with hcin | rfl
            · have hlink := hK p' pe hq c hcin
              have hcne : c ≠ entry.id := fun he =>
                hfresh_nochild p' pe hq (he ▸ hcin)
              rw [mapGet_mapSet_ne _ _ (fun he => hcne he.symm)]
              exact hlink
            · rw [mapGet_mapSet_self]
          · by_cases hpentry : p' = entry.id
            · subst hpentry
              rw [mapGet_mapSet_ne _ _ (Ne.symm hppid),
                mapGet_mapSet_self] at hp3
              cases hp3
              rw [hch] at hc
              simp at hc
            · rw [mapGet_mapSet_ne _ _ (fun he => hppid he.symm),
                mapGet_mapSet_ne _ _ (fun he => hpentry he.symm)] at hp3
              have hlink := hK p' pe3 hp3 c hc
              have hcne : c ≠ entry.id := fun he =>
                hfresh_nochild p' pe3 hp3 (he ▸ hc)
              rw [mapGet_mapSet_ne _ _ (fun he => hcne he.symm)]
              exact hlink
      · exfalso
        have heq : (EntryManager.addEntry m (some pid) entry index).1 =
            false := by
          simp only [EntryManager.addEntry, hq, htype,
            EntryManager.registerEntry, ne_eq, not_true_eq_false, if_false,
            if_neg hrange, if_neg hid]
        rw [heq] at htrue
        cases htrue
    · exfalso
      rw [addEntry_invalid_parent_unchanged m pid entry index
        (fun q hq' => by rw [hq] at hq'; cases hq'; exact htype)] at htrue
      simp at htrue

def entCc : Entry := ⟨"C", "C", EKind.container, ["D"]⟩
def entD : Entry := ⟨"D", "D", EKind.container, []⟩

/-- A registry with container `C` holding container `D`. -/
def regCD : EntryManager := ⟨[("C", entCc), ("D", entD)], [("D", "C")]⟩

theorem noSelfAncestor_regCD : NoSelfAncestor regCD := by
  intro id n hn h
  cases n with
  | zero => omega
  | succ k =>
    by_cases hd : id = "D"
    · subst hd
      rw [show parentIterN regCD (k + 1) "D" = parentIterN regCD k "C"
        from rfl] at h
      cases k with
      | zero => simp [parentIterN] at h
      | succ k2 =>
        rw [show parentIterN regCD (k2 + 1) "C" = none from rfl] at h
        cases h
    · have hnone : mapGet regCD.parentIdById id = none := by
        simp only [regCD, mapGet]
        rw [if_neg (fun hc => hd hc.symm)]
      rw [show parentIterN regCD (k + 1) id =
        (match mapGet regCD.parentIdById id with
          | none => none
          | some p => parentIterN regCD k p) from rfl, hnone] at h
      cases h

/-- Claim C1 counterexample: the registry operations neither leave the
state unchanged on every `false` return (an out-of-range `add` registers
the entry) nor keep the §3 invariants on every `true` return (adding the
registered container `C` under its own child `D` returns `true` and makes
`C` its own ancestor, starting from a state satisfying the link and forest
invariants). -/
theorem registry_ops_counterexample :
    ((EntryManager.addEntry regP (some "P") entE 1).1 = false ∧
      (EntryManager.addEntry regP (some "P") entE 1).2 ≠ regP) ∧
    (LinkInv regCD ∧ NoSelfAncestor regCD ∧
      (EntryManager.addEntry regCD (some "D") entCc 0).1 = true ∧
      ¬ NoSelfAncestor (EntryManager.addEntry regCD (some "D") entCc 0).2) := by
  refine ⟨⟨by decide, by decide⟩, ?_, noSelfAncestor_regCD, by decide, ?_⟩
  · intro c p h
    have hmem := mapGet_mem h
    simp [regCD] at hmem
    obtain ⟨rfl, rfl⟩ := hmem
    exact ⟨by decide, entCc, by decide, by decide, by decide⟩
  · intro h
    exact (h "C" 2 (by decide)) (by decide)

/-- Claim C1 (amended): `remove` and `reorder` leave the whole registry
state unchanged when they return `false`, and `add` leaves it unchanged
when its parent validation fails; however `add` with a valid container
parent and an out-of-range index returns `false` after registering the
entry and recording its parent link, and a failed `move` likewise mutates
the registry (documented quirk, §9).  On a `true` return, `add` preserves
the §3 link invariant provided the added entry is fresh (unregistered,
nonempty id, empty children — the documented caller contract); the forest
invariant is not re-validated and a successful `add` can break it. -/
theorem registry_failure_and_success_semantics :
    (∀ (m : EntryManager) (id : String),
      (EntryManager.removeEntry m id).1 = false →
      (EntryManager.removeEntry m id).2 = m) ∧
    (∀ (m : EntryManager) (pid id : String) (index : Int),
      (EntryManager.reorderEntry m pid id index).1 = false →
      (EntryManager.reorderEntry m pid id index).2 = m) ∧
    (∀ (m : EntryManager) (pid : String) (entry : Entry) (index : Int),
      (∀ q, mapGet m.entriesById pid = some q →
        q.type ≠ EKind.container) →
      EntryManager.addEntry m (some pid) entry index = (false, m)) ∧
    (∀ (m : EntryManager) (pid : String) (entry : Entry) (index : Int)
        (pe : Entry),
      mapGet m.entriesById pid = some pe → pe.type = EKind.container →
      ¬(0 ≤ index ∧ index ≤ (pe.children.length : Int)) →
      entry.id ≠ "" →
      EntryManager.addEntry m (some pid) entry index =
        (false, ⟨mapSet m.entriesById entry.id entry,
          mapSet m.parentIdById entry.id pid⟩)) ∧
    ((EntryManager.moveEntry regMove "E" (some "X") 0).1 = false ∧
      (EntryManager.moveEntry regMove "E" (some "X") 0).2 ≠ regMove) ∧
    (∀ (m : EntryManager) (pid : String) (entry : Entry) (index : Int),
      LinkInv m → ChildrenLinked m →
      mapGet m.entriesById entry.id = none →
      entry.id ≠ "" →
      entry.children = [] →
      (EntryManager.addEntry m (some pid) entry index).1 = true →
      LinkInv (EntryManager.addEntry m (some pid) entry index).2 ∧
      ChildrenLinked (EntryManager.addEntry m (some pid) entry index).2) := by
  refine ⟨removeEntry_false_unchanged, reorderEntry_false_unchanged,
    addEntry_invalid_parent_unchanged, ?_, ⟨by decide, by decide⟩,
    addEntry_fresh_preserves_links⟩
  intro m pid entry index pe h1 h2 h3 h4
  simp only [EntryManager.addEntry, h1, h2, EntryManager.registerEntry,
    ne_eq, not_true_eq_false, if_false, if_neg h3, if_neg h4]

/-- Claim C1 witness: each clause at a concrete registry. -/
theorem registry_failure_and_success_semantics_witness :
    (EntryManager.removeEntry EntryManager.init "q").2 =
      EntryManager.init ∧
    (EntryManager.reorderEntry EntryManager.init "p" "q" 0).2 =
      EntryManager.init ∧
    EntryManager.addEntry regP (some "Z") entE 0 = (false, regP) ∧
    EntryManager.addEntry regP (some "P") entE 5 =
      (false, ⟨mapSet regP.entriesById "E" entE,
        mapSet regP.parentIdById "E" "P"⟩) ∧
    (LinkInv (EntryManager.addEntry regP (some "P") entE 0).2 ∧
      ChildrenLinked (EntryManager.addEntry regP (some "P") entE 0).2) := by
  refine ⟨registry_failure_and_success_semantics.1 EntryManager.init "q"
      (by decide),
    registry_failure_and_success_semantics.2.1 EntryManager.init "p" "q" 0
      (by decide),
    registry_failure_and_success_semantics.2.2.1 regP "Z" entE 0 ?_,
    registry_failure_and_success_semantics.2.2.2.1 regP "P" entE 5
      ⟨"P", "P", EKind.container, []⟩ (by decide) (by decide) (by decide)
      (by decide),
    registry_failure_and_success_semantics.2.2.2.2.2 regP "P" entE 0
      ?_ ?_ (by decide) (by decide) rfl (by decide)⟩
  · intro q hq
    rw [show mapGet regP.entriesById "Z" = none from by decide] at hq
    cases hq
  · intro c p h
    simp [regP, mapGet] at h
  · intro p pe hp c hc
    have hmem := mapGet_mem hp
    simp [regP] at hmem
    obtain ⟨rfl, rfl⟩ := hmem
    simp at hc
